import Mathlib

/-!  Shallow embedding of the privacy-preserving financial QA pipeline:
     ai_core/privacy_policy.py, ai_core/sensitive_extractors.py,
     ai_core/financial_qa.py and the trace-logging loop of
     experiments/run_eval.py.

     The regular expressions of the source are embedded as specialized
     scanning matchers over `List Char`, modelling Python `re` semantics
     (leftmost match, greedy quantifiers, `\b` word boundaries) on the
     ASCII fragment the patterns use.  -/

/-- Python `\w` test (ASCII fragment): letters, digits, underscore. -/
def isWordChar (c : Char) : Bool := c.isAlphanum || c == '_'

/-- The separator class `[- ]` of the SSN pattern. -/
def isSepChar (c : Char) : Bool := c == '-' || c == ' '

/-- Character at offset `i` (mirrors Python string indexing). -/
def gAt : List Char → Nat → Option Char
  | [], _ => none
  | c :: _, 0 => some c
  | _ :: t, n+1 => gAt t n

/-- `n` consecutive `\d` digits starting at offset `i`. -/
def digitsAt (l : List Char) (i n : Nat) : Bool :=
  (List.range n).all fun j =>
    match gAt l (i+j) with
    | some c => c.isDigit
    | none => false

/-- A `[- ]` separator at offset `i`. -/
def sepAt (l : List Char) (i : Nat) : Bool :=
  match gAt l i with
  | some c => isSepChar c
  | none => false

/-- `\b` after a match: offset `i` is end-of-string or a non-word char. -/
def noWordAt (l : List Char) (i : Nat) : Bool :=
  match gAt l i with
  | some c => !isWordChar c
  | none => true

/-- SSN pattern `\d{3}[- ]\d{2}[- ]\d{4}\b` with both separators present. -/
def varA (l : List Char) : Bool :=
  digitsAt l 0 3 && sepAt l 3 && digitsAt l 4 2 && sepAt l 6 && digitsAt l 7 4 && noWordAt l 11

/-- SSN pattern variant with only the first separator present. -/
def varB (l : List Char) : Bool :=
  digitsAt l 0 3 && sepAt l 3 && digitsAt l 4 6 && noWordAt l 10

/-- SSN pattern variant with only the second separator present. -/
def varC (l : List Char) : Bool :=
  digitsAt l 0 5 && sepAt l 5 && digitsAt l 6 4 && noWordAt l 10

/-- SSN pattern variant with no separator (nine digits). -/
def varD (l : List Char) : Bool :=
  digitsAt l 0 9 && noWordAt l 9

/-- Length of the match of `\d{3}[- ]?\d{2}[- ]?\d{4}\b` at the head of `l`
    (the leading `\b` is handled by the scanners via their `pw` flag).
    The four separator variants are mutually exclusive (a given offset is
    a digit or a separator, never both), so the if-order is immaterial. -/
def matchLen (l : List Char) : Option Nat :=
  if varA l then some 11
  else if varB l then some 10
  else if varC l then some 10
  else if varD l then some 9
  else none

/-- The literal replacement `"[SSN]"` of `PrivacyPolicy.SSN_PATTERN.sub`. -/
def tokSSN : List Char := ['[', 'S', 'S', 'N', ']']

/-- Fuelled scan for `SSN_PATTERN.sub("[SSN]", ·)`: left-to-right scan;
    `pw` records whether the previous character is a word character
    (so that the leading `\b` of the pattern can be tested).  Each step
    consumes at least one character, so fuel `l.length` is always enough;
    the fuel only makes the recursion structural (hence kernel-reducible). -/
def ssnMaskF : Nat → Bool → List Char → List Char
  | 0, _, l => l
  | _+1, _, [] => []
  | f+1, pw, c :: rest =>
    if pw then c :: ssnMaskF f (isWordChar c) rest
    else
      match matchLen (c :: rest) with
      | some L => tokSSN ++ ssnMaskF f true (rest.drop (L - 1))
      | none => c :: ssnMaskF f (isWordChar c) rest

/-- `SSN_PATTERN.sub("[SSN]", ·)`. -/
def ssnMask (pw : Bool) (l : List Char) : List Char := ssnMaskF l.length pw l

/-- Fuelled scan for `SSN_PATTERN.findall`. -/
def ssnFindallF : Nat → Bool → List Char → List (List Char)
  | 0, _, _ => []
  | _+1, _, [] => []
  | f+1, pw, c :: rest =>
    if pw then ssnFindallF f (isWordChar c) rest
    else
      match matchLen (c :: rest) with
      | some L => (c :: rest).take L :: ssnFindallF f true (rest.drop (L - 1))
      | none => ssnFindallF f (isWordChar c) rest

/-- `SSN_PATTERN.findall` — the list of matched substrings, in scan order. -/
def ssnFindall (pw : Bool) (l : List Char) : List (List Char) := ssnFindallF l.length pw l

/-- `SSN_PATTERN.search` — the first matched substring, if any. -/
def ssnSearch (pw : Bool) (l : List Char) : Option (List Char) :=
  match l with
  | [] => none
  | c :: rest =>
    if pw then ssnSearch (isWordChar c) rest
    else
      match matchLen (c :: rest) with
      | some L => some ((c :: rest).take L)
      | none => ssnSearch (isWordChar c) rest

/-- No SSN-pattern occurrence anywhere in `l`, where `pw` tells whether the
    character just before `l` is a word character. -/
def Clean : Bool → List Char → Prop
  | _, [] => True
  | pw, c :: t => (pw = false → matchLen (c :: t) = none) ∧ Clean (isWordChar c) t

/-- Structure of `ssnMask` output up to its first replacement token: either no
    replacement happened at all, or there is a first token at offset `k`, the
    output agrees with the input below `k`, a pattern match starts at input
    offset `k`, and the scan reached `k` with its `\b` test satisfied. -/
def MaskSpec (pw : Bool) (l : List Char) : Prop :=
  ssnMask pw l = l ∨
  ∃ k, (∀ j, j < k → gAt (ssnMask pw l) j = gAt l j) ∧
    gAt (ssnMask pw l) k = some '[' ∧
    (∃ L, matchLen (l.drop k) = some L) ∧
    (k = 0 → pw = false) ∧
    (∀ j, k = j + 1 → ∃ c, gAt l j = some c ∧ isWordChar c = false)

/-- Python `\s` membership (ASCII fragment). -/
def pyIsSpace (c : Char) : Bool :=
  c == ' ' || c == '\t' || c == '\n' || c == '\r' || c == '\x0b' || c == '\x0c'

/-- The `[A-Za-z]` class. -/
def isAsciiAlphaChar (c : Char) : Bool := c.isAlpha

/-- The `[A-Z]` class. -/
def isUpperAZ (c : Char) : Bool := decide ('A' ≤ c ∧ c ≤ 'Z')

/-- One character of `re.sub(r"[^A-Za-z\s]", " ", s)`. -/
def normChar (c : Char) : Char := if isAsciiAlphaChar c || pyIsSpace c then c else ' '

/-- `re.sub(r"\s+", " ", s)` — replace each whitespace run by one space;
    `inR` records whether the scan is inside a run already replaced. -/
def collapseAux : Bool → List Char → List Char
  | _, [] => []
  | inR, c :: t =>
    if pyIsSpace c then
      if inR then collapseAux true t else ' ' :: collapseAux true t
    else c :: collapseAux false t

/-- Remove trailing whitespace. -/
def dropTrailWS : List Char → List Char
  | [] => []
  | c :: t =>
    let r := dropTrailWS t
    if r.isEmpty && pyIsSpace c then [] else c :: r

/-- Python `str.strip()`. -/
def stripPy (l : List Char) : List Char := dropTrailWS (l.dropWhile pyIsSpace)

/-- `normalize_name` of sensitive_extractors.py: replace non-letters by
    spaces, collapse whitespace, strip, uppercase. -/
def normalize_name (s : String) : String :=
  ⟨(stripPy (collapseAux false (s.data.map normChar))).map Char.toUpper⟩

/-- All characters are uppercase letters or single separating spaces. -/
def shapeChars (l : List Char) : Bool := l.all fun c => isUpperAZ c || c == ' '

/-- No two adjacent spaces. -/
def noDoubleSpace : List Char → Bool
  | [] => true
  | [_] => true
  | a :: b :: t => !(a == ' ' && b == ' ') && noDoubleSpace (b :: t)

/-- Neither the first nor the last character is a space. -/
def noEdgeSpace (l : List Char) : Bool :=
  (match l.head? with
   | some c => !(c == ' ')
   | none => true) &&
  (match l.getLast? with
   | some c => !(c == ' ')
   | none => true)

/-- Normalized-name shape: uppercase letters separated by single spaces,
    no leading or trailing whitespace. -/
def normShape (l : List Char) : Bool := shapeChars l && noDoubleSpace l && noEdgeSpace l

/-- `DisclosureMode` of privacy_policy.py (`open` is a Lean keyword, hence
    the capitalized constructor names). -/
inductive DisclosureMode where
  | Open
  | Authorized
  | Redacted
deriving DecidableEq

/-- The `.value` strings of the `DisclosureMode` enum. -/
def DisclosureMode.value : DisclosureMode → String
  | .Open => "open"
  | .Authorized => "authorized"
  | .Redacted => "redacted"

/-- `PrivacyPolicy.SSN_PATTERN.sub("[SSN]", s)` on strings. -/
def maskSSNStr (s : String) : String := ⟨ssnMask false s.data⟩

/-- `PrivacyPolicy.enforce` of privacy_policy.py. -/
def PrivacyPolicy.enforce (text : String) (mode : DisclosureMode)
    (grounded : Bool) (authorized : Bool) : String :=
  match mode with
  | .Open => text
  | .Authorized => if authorized && grounded then text else maskSSNStr text
  | .Redacted => maskSSNStr text

/-- Python `str.upper()` (character-wise ASCII uppercasing). -/
def upStr (s : String) : String := ⟨s.data.map Char.toUpper⟩

/-- Python `str.lower()` (character-wise ASCII lowercasing). -/
def lowStr (s : String) : String := ⟨s.data.map Char.toLower⟩

/-- Split a character list at every separator satisfying `p` (the semantics
    of `str.split(sep)`: empty pieces are kept). -/
def splitBy (p : Char → Bool) : List Char → List (List Char)
  | [] => [[]]
  | c :: t =>
    match splitBy p t with
    | [] => [[]]
    | x :: xs => if p c then [] :: x :: xs else (c :: x) :: xs

/-- `sep.join(parts)`. -/
def interJoin (sep : String) : List String → String
  | [] => ""
  | [x] => x
  | x :: xs => x ++ sep ++ interJoin sep xs

/-- Length of the maximal run of characters satisfying `p` from offset `i`. -/
def runLen (p : Char → Bool) (l : List Char) (i : Nat) : Nat :=
  ((l.drop i).takeWhile p).length

/-- `\b` before a match starting at offset `i`. -/
def bdryBeforeAt (l : List Char) (i : Nat) : Bool :=
  match i with
  | 0 => true
  | j+1 =>
    match gAt l j with
    | some c => !isWordChar c
    | none => true

/-- End offsets of the greedy repetitions of `(?:\s+[A-Z]{2,})+` starting at
    `pos` (fuelled; each repetition consumes at least three characters). -/
def nameReps (l : List Char) : Nat → Nat → List Nat
  | 0, _ => []
  | f+1, pos =>
    let w := runLen pyIsSpace l pos
    let a := runLen isUpperAZ l (pos + w)
    if 1 ≤ w ∧ 2 ≤ a then (pos + w + a) :: nameReps l f (pos + w + a) else []

/-- Match of `NAME_PATTERN = \b[A-Z]{2,}(?:\s+[A-Z]{2,})+\b` at offset `i`,
    returning the end offset.  Greedy backtracking only ever drops the last
    repetition (dropping more is never needed: after an earlier repetition
    the next character is whitespace, so the trailing `\b` holds). -/
def nameMatchAt (l : List Char) (i : Nat) : Option Nat :=
  if bdryBeforeAt l i then
    let r0 := runLen isUpperAZ l i
    if 2 ≤ r0 then
      match (nameReps l (l.length + 1) (i + r0)).reverse with
      | [] => none
      | [e1] => if noWordAt l e1 then some e1 else none
      | e :: e2 :: _ => if noWordAt l e then some e else some e2
    else none
  else none

/-- `NAME_PATTERN.findall` — fuelled scan from offset `i`. -/
def nameFindall (l : List Char) : Nat → Nat → List (List Char)
  | 0, _ => []
  | f+1, i =>
    if l.length ≤ i then []
    else
      match nameMatchAt l i with
      | some e => ((l.drop i).take (e - i)) :: nameFindall l f e
      | none => nameFindall l f (i+1)

/-- The boilerplate blacklist of `extract_candidate_names`. -/
def nameBlacklist : List String :=
  ["UNITED STATES", "INTERNAL REVENUE SERVICE", "DEPARTMENT OF THE TREASURY",
   "PREVIEW COPY", "DO NOT FILE"]

/-- `list(dict.fromkeys(out))` — order-preserving deduplication. -/
def dedupKeepFirst (l : List String) : List String :=
  l.foldl (fun acc x => if x ∈ acc then acc else acc ++ [x]) []

/-- `len(n.split())` — number of whitespace-separated words. -/
def wordCount (s : String) : Nat :=
  ((splitBy pyIsSpace s.data).filter fun w => w ≠ []).length

/-- `extract_candidate_names` of sensitive_extractors.py. -/
def extract_candidate_names (text : String) : List String :=
  let up := upStr text
  let raw := (nameFindall up.data (up.data.length + 1) 0).map fun cs => (⟨cs⟩ : String)
  let out := raw.foldl (fun acc n =>
    let nn := normalize_name n
    if nn.length < 5 then acc
    else if nn ∈ nameBlacklist then acc
    else if 4 < wordCount nn then acc
    else acc ++ [nn]) []
  dedupKeepFirst out

/-- A langchain `Document`: page text plus `source`/`page` metadata
    (`metadata.get` returns `None` when absent, hence the options). -/
structure Doc where
  page_content : String
  source : Option String
  page : Option Nat
deriving DecidableEq

/-- `"\n".join(d.page_content for d in docs)`. -/
def textOfDocs (docs : List Doc) : String :=
  interJoin ("\n") (docs.map fun d => d.page_content)

/-- The uppercased joined text of `build_name_ssn_pairs_from_docs`. -/
def upperOfDocs (docs : List Doc) : String := upStr (textOfDocs docs)

/-- `str.splitlines()` for the newline-separated texts in scope. -/
def splitLinesPy (s : String) : List String :=
  (splitBy (fun c => c == '\n') s.data).map fun cs => (⟨cs⟩ : String)

/-- `dict.setdefault` on an insertion-ordered association list. -/
def sdefault (ps : List (String × String)) (k v : String) : List (String × String) :=
  if (ps.lookup k).isSome then ps else ps ++ [(k, v)]

/-- One line of the same-line pass of `build_name_ssn_pairs_from_docs`:
    every candidate name on a line holding an SSN is bound, via
    `setdefault`, to the first SSN found on that line. -/
def lineStep (ps : List (String × String)) (line : String) : List (String × String) :=
  match ssnFindall false line.data with
  | [] => ps
  | s0 :: _ =>
    match extract_candidate_names line with
    | [] => ps
    | names => names.foldl (fun acc n => sdefault acc n ⟨s0⟩) ps

/-- The whole same-line pass. -/
def pass1 (lines : List String) : List (String × String) := lines.foldl lineStep []

/-- The proximity fallback: scan the occurrences of `name` (successive
    `str.find` results) and search the 200-character trailing window of
    each for the first SSN pattern. -/
def proximityFind (upperL : List Char) (name : List Char) : Option (List Char) :=
  (List.range (upperL.length + 1)).findSome? fun i =>
    if name.isPrefixOf (upperL.drop i) then ssnSearch false ((upperL.drop i).take 200)
    else none

/-- One name of the proximity pass: only names with no association yet. -/
def proxStep (upperL : List Char) (ps : List (String × String)) (name : String) :
    List (String × String) :=
  if (ps.lookup name).isSome then ps
  else
    match proximityFind upperL name.data with
    | some v => ps ++ [(name, ⟨v⟩)]
    | none => ps

/-- `build_name_ssn_pairs_from_docs` of sensitive_extractors.py:
    same-line pass, then proximity pass for still-unresolved names. -/
def build_name_ssn_pairs_from_docs (docs : List Doc) : List (String × String) :=
  let upper := upperOfDocs docs
  (extract_candidate_names upper).foldl (proxStep upper.data) (pass1 (splitLinesPy upper))

/-- Whether `line` qualifies for binding `n` in the same-line pass, and if
    so the value bound: the first SSN found on the line. -/
def lineQualSSN (n : String) (line : String) : Option String :=
  match ssnFindall false line.data with
  | [] => none
  | s0 :: _ => if n ∈ extract_candidate_names line then some ⟨s0⟩ else none

/-- The binding the same-line pass gives `n`: the first SSN of the first
    qualifying line. -/
def firstLineSSN (lines : List String) (n : String) : Option String :=
  lines.findSome? (lineQualSSN n)

/-- Two-line witness document: JOHN SMITH shares its first line with one SSN
    and its second line with another. -/
def pairDoc : Doc :=
  { page_content := "JOHN SMITH 111-22-3333 REFUND\nDEPOSIT 444-55-6666 JOHN SMITH",
    source := none, page := none }

/-- Python `needle in hay` substring test. -/
def isSubstr (needle hay : List Char) : Bool :=
  (List.range (hay.length + 1)).any fun i => needle.isPrefixOf (hay.drop i)

/-- `best_name_match` of sensitive_extractors.py (the source rebinds
    `target = normalize_name(target)`; here the normalized target is
    written out at each use). -/
def best_name_match (target : String) (candidates : List String) : Option String :=
  if target = "" then none
  else if normalize_name target ∈ candidates then some (normalize_name target)
  else candidates.find? fun c =>
    isSubstr (normalize_name target).data c.data || isSubstr c.data (normalize_name target).data

/-- Modelled from the spec (§4.3): the first candidate, in list order, with
    substring containment in either direction. -/
def specFirstContain (t : String) : List String → Option String
  | [] => none
  | c :: rest =>
    if isSubstr t.data c.data || isSubstr c.data t.data then some c
    else specFirstContain t rest

/-- Modelled from the spec (§4.3 matching policy): exact normalized equality
    first, else first containment match, else nothing. -/
def specNameMatch (t : String) (cs : List String) : Option String :=
  if t ∈ cs then some t else specFirstContain t cs

/-- The candidate list `list(pairs.keys())` that `ask` hands to
    `best_name_match` (financial_qa.py:147): key-insertion order. -/
def askCandidates (docs : List Doc) : List String :=
  (build_name_ssn_pairs_from_docs docs).map Prod.fst

/-- Witness document whose extracted pair keys are not alphabetical. -/
def zaDoc : Doc :=
  { page_content := "ZED ADAMS 111-22-3333\nANN BEE 444-55-6666", source := none, page := none }

/-- Lexicographic code-point comparison (Python string `<`). -/
def strLtB : List Char → List Char → Bool
  | [], [] => false
  | [], _ :: _ => true
  | _ :: _, [] => false
  | a :: as, b :: bs =>
    if Nat.blt a.toNat b.toNat then true
    else if Nat.blt b.toNat a.toNat then false
    else strLtB as bs

/-- Insertion into a sorted list of strings. -/
def insertStr (x : String) : List String → List String
  | [] => [x]
  | y :: ys => if strLtB y.data x.data then y :: insertStr x ys else x :: y :: ys

/-- Python `sorted` on strings (insertion sort; `<` is code-point order). -/
def sortStrs : List String → List String
  | [] => []
  | x :: xs => insertStr x (sortStrs xs)

/-- Case-insensitive character comparison (re.IGNORECASE). -/
def lowEq (c d : Char) : Bool := c.toLower == d.toLower

/-- Case-insensitive literal match at offset `i`. -/
def litAt (l : List Char) (i : Nat) (lit : List Char) : Bool :=
  (List.range lit.length).all fun j =>
    match gAt l (i+j), gAt lit j with
    | some c, some d => lowEq c d
    | _, _ => false

/-- The apostrophe character (written via its code point). -/
def apos : Char := Char.ofNat 39

/-- `looks_like_ssn_question` of sensitive_extractors.py. -/
def looks_like_ssn_question (q : String) : Bool :=
  isSubstr ("ssn").data (lowStr q).data || isSubstr ("social security").data (lowStr q).data

/-- Greedy end position of up to `n` repetitions of `(?:\s+[A-Za-z]+)`
    starting at `pos` (regex backtracking over these repetitions can never
    rescue a failed following literal, so the greedy end is the only end). -/
def repsEnd (l : List Char) : Nat → Nat → Nat
  | 0, pos => pos
  | n+1, pos =>
    let w := runLen pyIsSpace l pos
    let a := runLen isAsciiAlphaChar l (pos + w)
    if 1 ≤ w ∧ 1 ≤ a then repsEnd l n (pos + w + a) else pos

/-- Match of `([A-Za-z]+(?:\s+[A-Za-z]+){0,3})'s\s+(?:ssn|social security)`
    (IGNORECASE) at offset `i`; returns the group-1 span. -/
def possAt (l : List Char) (i : Nat) : Option (Nat × Nat) :=
  let r0 := runLen isAsciiAlphaChar l i
  if r0 = 0 then none
  else
    let ge := repsEnd l 3 (i + r0)
    match gAt l ge, gAt l (ge+1) with
    | some c1, some c2 =>
      if c1 == apos && lowEq c2 's' then
        let p2 := ge + 2
        let w2 := runLen pyIsSpace l p2
        if w2 = 0 then none
        else
          let p3 := p2 + w2
          if litAt l p3 ("ssn").data || litAt l p3 ("social security").data then some (i, ge)
          else none
      else none
    | _, _ => none

/-- One alternative of `(?:ssn|social security)\s+for\s+([A-Za-z]+(?:\s+[A-Za-z]+){0,3})`. -/
def forPatLit (l : List Char) (i : Nat) (lit : List Char) : Option (Nat × Nat) :=
  if litAt l i lit then
    let p := i + lit.length
    let w := runLen pyIsSpace l p
    if w = 0 then none
    else
      let p2 := p + w
      if litAt l p2 ("for").data then
        let p3 := p2 + 3
        let w3 := runLen pyIsSpace l p3
        if w3 = 0 then none
        else
          let p4 := p3 + w3
          let r0 := runLen isAsciiAlphaChar l p4
          if r0 = 0 then none else some (p4, repsEnd l 3 (p4 + r0))
      else none
  else none

/-- Match of the second pattern of `extract_requested_name` at offset `i`
    (the two alternatives cannot both start at one offset: they diverge at
    their second character). -/
def forPat (l : List Char) (i : Nat) : Option (Nat × Nat) :=
  match forPatLit l i ("ssn").data with
  | some r => some r
  | none => forPatLit l i ("social security").data

/-- The substring `l[a:b]`. -/
def sliceStr (l : List Char) (a b : Nat) : String := ⟨(l.drop a).take (b - a)⟩

/-- Python `str.strip()` on strings. -/
def pyStrip (s : String) : String := ⟨stripPy s.data⟩

/-- `extract_requested_name` of sensitive_extractors.py: `re.search` scans
    offsets left to right; the possessive pattern is tried on the whole
    string before the `ssn for <name>` pattern. -/
def extract_requested_name (question : String) : Option String :=
  let l := (pyStrip question).data
  match (List.range (l.length + 1)).findSome? (possAt l) with
  | some (a, b) => some (normalize_name (sliceStr l a b))
  | none =>
    match (List.range (l.length + 1)).findSome? (forPat l) with
    | some (a, b) => some (normalize_name (sliceStr l a b))
    | none => none

/-- The "named person, no pair found" answer of `ask`. -/
def notFoundNamed : String :=
  "I cannot find an SSN associated with that name in the retrieved context."

/-- The "no SSN at all" answer of `ask`. -/
def notFoundAny : String := "I cannot find an SSN in the retrieved context."

/-- The unnamed-question branch of the sensitive path of `ask`
    (financial_qa.py:154-166). -/
def unnamedAnswer (pairs : List (String × String)) : String × Bool :=
  match pairs with
  | [] => (notFoundAny, false)
  | _ =>
    let names := sortStrs (pairs.map Prod.fst)
    ("I found SSNs for the following names in the retrieved context:\n- " ++
      interJoin ("\n- ") names ++ "\n\nPlease specify which person you want.", true)

/-- The sensitive-path answer construction of `ask`
    (financial_qa.py:141-166); Python treats `None` and `""` as falsy in
    the `if requested` / `if matched and matched in pairs` tests. -/
def sensitiveAnswer (question : String) (source_docs : List Doc) : String × Bool :=
  let pairs := build_name_ssn_pairs_from_docs source_docs
  match extract_requested_name question with
  | some req =>
    if req = "" then unnamedAnswer pairs
    else
      match best_name_match req (pairs.map Prod.fst) with
      | some matched =>
        if matched = "" then (notFoundNamed, false)
        else
          match pairs.lookup matched with
          | some v => (v, true)
          | none => (notFoundNamed, false)
      | none => (notFoundNamed, false)
  | none => unnamedAnswer pairs

/-- The return value of the qa_chain collaborator (qa_chain.py). -/
structure QAResult where
  result : String
  source_documents : List Doc
deriving DecidableEq

/-- The `self.last_trace` dict of `ask` (financial_qa.py:188-194). -/
structure TraceRec where
  question : String
  disclosure_mode : String
  authorized : Bool
  grounded : Bool
  sources : List (Option String × Option Nat)
deriving DecidableEq

/-- The observable result of one `ask` call. -/
structure AskOutput where
  answer : String
  last_trace : TraceRec
deriving DecidableEq

/-- Python `f"{x}"` for an optional string (None prints as "None"). -/
def optStr : Option String → String
  | some s => s
  | none => "None"

/-- Python `f"{x}"` for an optional page number. -/
def optNatStr : Option Nat → String
  | some n => toString n
  | none => "None"

/-- The citation tag `f"{src} (page {page})"`. -/
def fmtTag (d : Doc) : String := optStr d.source ++ " (page " ++ optNatStr d.page ++ ")"

/-- One step of the seen-set deduplication of citation tags. -/
def tagStep (acc : List String) (d : Doc) : List String :=
  let tag := fmtTag d
  if tag ∈ acc then acc else acc ++ [tag]

/-- Order-preserving deduplicated citation tags (financial_qa.py:196-205). -/
def dedupTags (docs : List Doc) : List String := docs.foldl tagStep []

/-- The appended citation block (financial_qa.py:208). -/
def citationText (cs : List String) : String :=
  "\n\nSources:\n" ++ interJoin ("\n") (cs.map fun c => "- " ++ c)

/-- The unconditional tail of `ask` (financial_qa.py:173-210): qa_chain
    call, groundedness from its documents, policy enforcement, trace
    construction, citation append. -/
def askStep2 (qa_chain : String → Except String QAResult) (question : String)
    (disclosure_mode : DisclosureMode) (include_sources : Bool) (authorized : Bool) :
    Except String AskOutput :=
  match qa_chain question with
  | Except.error e => Except.error e
  | Except.ok result =>
    let source_docs := result.source_documents
    let grounded := decide (0 < source_docs.length)
    let answer2 := PrivacyPolicy.enforce result.result disclosure_mode grounded authorized
    let sources := source_docs.map fun d => (d.source, d.page)
    let trace : TraceRec := ⟨question, disclosure_mode.value, authorized, grounded, sources⟩
    let citations := dedupTags source_docs
    let answer3 :=
      if include_sources && decide (0 < source_docs.length) then
        (if citations.isEmpty then answer2 else answer2 ++ citationText citations)
      else answer2
    Except.ok ⟨answer3, trace⟩

/-- `FinancialQASystem.ask` (financial_qa.py:125-210).  In the source,
    lines 173-176 are dedented out of the else-branch, so the qa_chain
    call runs unconditionally and its answer/documents overwrite the
    sensitive-path values; the sensitive-path computation (and the wide
    retrieval, which can still raise) is therefore dead except for its
    effects, modelled by the discarded `_dead` binding. -/
def ask (retrieve : String → Nat → Except String (List Doc))
    (qa_chain : String → Except String QAResult) (question : String)
    (disclosure_mode : DisclosureMode) (include_sources : Bool) (authorized : Bool) :
    Except String AskOutput :=
  if looks_like_ssn_question question then
    match retrieve question 12 with
    | Except.error e => Except.error e
    | Except.ok sdocs =>
      let _dead := sensitiveAnswer question sdocs
      askStep2 qa_chain question disclosure_mode include_sources authorized
  else askStep2 qa_chain question disclosure_mode include_sources authorized

/-- One logged record of the evaluation loop (experiments/run_eval.py:69-102):
    on success the `last_trace` is copied and the measured latency added; on
    failure a record with `error` set, `grounded=False` and empty sources is
    written. -/
structure LogEvent where
  question : String
  disclosure_mode : String
  grounded : Bool
  sources : List (Option String × Option Nat)
  latency_ms : Nat
  error : Option String
deriving DecidableEq

/-- The per-question body of the evaluation loop of run_eval.py. -/
def evalStep (ask_result : Except String AskOutput) (question : String)
    (mode : DisclosureMode) (latency_ms : Nat) : LogEvent :=
  match ask_result with
  | Except.ok out =>
    { question := out.last_trace.question, disclosure_mode := out.last_trace.disclosure_mode,
      grounded := out.last_trace.grounded, sources := out.last_trace.sources,
      latency_ms := latency_ms, error := none }
  | Except.error e =>
    { question := question, disclosure_mode := mode.value, grounded := false,
      sources := [], latency_ms := latency_ms, error := some e }

instance exceptDecEq {ε α : Type} [DecidableEq ε] [DecidableEq α] :
    DecidableEq (Except ε α) := fun x y =>
  match x, y with
  | Except.error a, Except.error b =>
    if h : a = b then Decidable.isTrue (by rw [h])
    else Decidable.isFalse (by intro hc; injection hc with h'; exact h h')
  | Except.error _, Except.ok _ => Decidable.isFalse (by intro hc; exact Except.noConfusion hc)
  | Except.ok _, Except.error _ => Decidable.isFalse (by intro hc; exact Except.noConfusion hc)
  | Except.ok a, Except.ok b =>
    if h : a = b then Decidable.isTrue (by rw [h])
    else Decidable.isFalse (by intro hc; injection hc with h'; exact h h')

/-- The retrieved page of the "sensitive, named" scenario. -/
def sallyDoc : Doc :=
  { page_content := "SALLY SMITH 222-22-2222", source := some ("w2.pdf"), page := some 4 }

/-- The scenario question (the apostrophe is built via its code point). -/
def sallyQuestion : String := "What is Sally Smith" ++ apos.toString ++ "s SSN?"

/-- A generation-collaborator reply that is not the extracted SSN. -/
def sallyLLM : String := "The document does not state that."

def sallyRetrieve : String → Nat → Except String (List Doc) := fun _ _ => Except.ok [sallyDoc]

def sallyQA : String → Except String QAResult :=
  fun _ => Except.ok { result := sallyLLM, source_documents := [sallyDoc] }

def failRetrieve : String → Nat → Except String (List Doc) :=
  fun _ _ => Except.error ("retrieval backend unavailable")

def anyQA : String → Except String QAResult :=
  fun _ => Except.ok { result := "ok", source_documents := [] }

def ssnQuestion : String := "What is the SSN?"

/-- Source metadata whose filename itself resembles an SSN. -/
def ssnNameDoc : Doc :=
  { page_content := "irrelevant", source := some ("123-45-6789.pdf"), page := some 1 }

def okRetrieve : String → Nat → Except String (List Doc) := fun _ _ => Except.ok []

def ssnQA : String → Except String QAResult :=
  fun _ => Except.ok { result := "The SSN is 999-88-7777.", source_documents := [ssnNameDoc] }

def totalQuestion : String := "What is the reported total?"

theorem gAt_cons_zero (c : Char) (t : List Char) : gAt (c :: t) 0 = some c := rfl

theorem gAt_cons_succ (c : Char) (t : List Char) (n : Nat) : gAt (c :: t) (n+1) = gAt t n := rfl

theorem gAt_drop (l : List Char) : ∀ (n m : Nat), gAt (l.drop n) m = gAt l (n + m) := by
  induction l with
  | nil => intro n m; simp [gAt]
  | cons c t ih =>
    intro n m
    cases n with
    | zero => simp
    | succ n => simpa [Nat.succ_add] using ih n m

theorem digitsAt_spec {l : List Char} {i n : Nat} (h : digitsAt l i n = true)
    {j : Nat} (hj : j < n) : ∃ c, gAt l (i+j) = some c ∧ c.isDigit = true := by
  unfold digitsAt at h
  rw [List.all_eq_true] at h
  have hx := h j (List.mem_range.mpr hj)
  revert hx
  cases gAt l (i+j) <;> simp

theorem sepAt_spec {l : List Char} {i : Nat} (h : sepAt l i = true) :
    ∃ c, gAt l i = some c ∧ isSepChar c = true := by
  unfold sepAt at h
  revert h
  cases gAt l i <;> simp

theorem matchLen_cases {l : List Char} {L : Nat} (h : matchLen l = some L) :
    (varA l = true ∧ L = 11) ∨ (varB l = true ∧ L = 10) ∨
    (varC l = true ∧ L = 10) ∨ (varD l = true ∧ L = 9) := by
  unfold matchLen at h
  split_ifs at h with h1 h2 h3 h4 <;> simp_all

theorem matchLen_ge {l : List Char} {L : Nat} (h : matchLen l = some L) : 9 ≤ L := by
  rcases matchLen_cases h with ⟨_, rfl⟩ | ⟨_, rfl⟩ | ⟨_, rfl⟩ | ⟨_, rfl⟩ <;> omega

theorem matchLen_none_iff {l : List Char} : matchLen l = none ↔
    varA l = false ∧ varB l = false ∧ varC l = false ∧ varD l = false := by
  unfold matchLen
  split_ifs <;> simp_all

theorem matchLen_ne_none_of_var {l : List Char}
    (h : varA l = true ∨ varB l = true ∨ varC l = true ∨ varD l = true) :
    matchLen l ≠ none := by
  unfold matchLen
  split_ifs <;> simp_all

theorem digit_or_sep_of_digit {l : List Char} {i n j k : Nat}
    (h : digitsAt l i n = true) (hj : j < n) (hk : i + j = k) :
    ∃ c, gAt l k = some c ∧ (c.isDigit || isSepChar c) = true := by
  obtain ⟨c, hc, hd⟩ := digitsAt_spec h hj
  exact ⟨c, hk ▸ hc, by simp [hd]⟩

theorem digit_or_sep_of_sep {l : List Char} {i : Nat} (h : sepAt l i = true) :
    ∃ c, gAt l i = some c ∧ (c.isDigit || isSepChar c) = true := by
  obtain ⟨c, hc, hs⟩ := sepAt_spec h
  exact ⟨c, hc, by simp [hs]⟩

theorem matchLen_span {l : List Char} {L : Nat} (h : matchLen l = some L)
    {j : Nat} (hj : j < L) : ∃ c, gAt l j = some c ∧ (c.isDigit || isSepChar c) = true := by
  rcases matchLen_cases h with ⟨hv, rfl⟩ | ⟨hv, rfl⟩ | ⟨hv, rfl⟩ | ⟨hv, rfl⟩
  · unfold varA at hv
    simp only [Bool.and_eq_true] at hv
    obtain ⟨⟨⟨⟨⟨h1, h2⟩, h3⟩, h4⟩, h5⟩, h6⟩ := hv
    interval_cases j
    · exact digit_or_sep_of_digit (j := 0) h1 (by omega) (by omega)
    · exact digit_or_sep_of_digit (j := 1) h1 (by omega) (by omega)
    · exact digit_or_sep_of_digit (j := 2) h1 (by omega) (by omega)
    · exact digit_or_sep_of_sep h2
    · exact digit_or_sep_of_digit (j := 0) h3 (by omega) (by omega)
    · exact digit_or_sep_of_digit (j := 1) h3 (by omega) (by omega)
    · exact digit_or_sep_of_sep h4
    · exact digit_or_sep_of_digit (j := 0) h5 (by omega) (by omega)
    · exact digit_or_sep_of_digit (j := 1) h5 (by omega) (by omega)
    · exact digit_or_sep_of_digit (j := 2) h5 (by omega) (by omega)
    · exact digit_or_sep_of_digit (j := 3) h5 (by omega) (by omega)
  · unfold varB at hv
    simp only [Bool.and_eq_true] at hv
    obtain ⟨⟨⟨h1, h2⟩, h3⟩, h4⟩ := hv
    interval_cases j
    · exact digit_or_sep_of_digit (j := 0) h1 (by omega) (by omega)
    · exact digit_or_sep_of_digit (j := 1) h1 (by omega) (by omega)
    · exact digit_or_sep_of_digit (j := 2) h1 (by omega) (by omega)
    · exact digit_or_sep_of_sep h2
    · exact digit_or_sep_of_digit (j := 0) h3 (by omega) (by omega)
    · exact digit_or_sep_of_digit (j := 1) h3 (by omega) (by omega)
    · exact digit_or_sep_of_digit (j := 2) h3 (by omega) (by omega)
    · exact digit_or_sep_of_digit (j := 3) h3 (by omega) (by omega)
    · exact digit_or_sep_of_digit (j := 4) h3 (by omega) (by omega)
    · exact digit_or_sep_of_digit (j := 5) h3 (by omega) (by omega)
  · unfold varC at hv
    simp only [Bool.and_eq_true] at hv
    obtain ⟨⟨⟨h1, h2⟩, h3⟩, h4⟩ := hv
    interval_cases j
    · exact digit_or_sep_of_digit (j := 0) h1 (by omega) (by omega)
    · exact digit_or_sep_of_digit (j := 1) h1 (by omega) (by omega)
    · exact digit_or_sep_of_digit (j := 2) h1 (by omega) (by omega)
    · exact digit_or_sep_of_digit (j := 3) h1 (by omega) (by omega)
    · exact digit_or_sep_of_digit (j := 4) h1 (by omega) (by omega)
    · exact digit_or_sep_of_sep h2
    · exact digit_or_sep_of_digit (j := 0) h3 (by omega) (by omega)
    · exact digit_or_sep_of_digit (j := 1) h3 (by omega) (by omega)
    · exact digit_or_sep_of_digit (j := 2) h3 (by omega) (by omega)
    · exact digit_or_sep_of_digit (j := 3) h3 (by omega) (by omega)
  · unfold varD at hv
    simp only [Bool.and_eq_true] at hv
    obtain ⟨h1, h2⟩ := hv
    interval_cases j
    · exact digit_or_sep_of_digit (j := 0) h1 (by omega) (by omega)
    · exact digit_or_sep_of_digit (j := 1) h1 (by omega) (by omega)
    · exact digit_or_sep_of_digit (j := 2) h1 (by omega) (by omega)
    · exact digit_or_sep_of_digit (j := 3) h1 (by omega) (by omega)
    · exact digit_or_sep_of_digit (j := 4) h1 (by omega) (by omega)
    · exact digit_or_sep_of_digit (j := 5) h1 (by omega) (by omega)
    · exact digit_or_sep_of_digit (j := 6) h1 (by omega) (by omega)
    · exact digit_or_sep_of_digit (j := 7) h1 (by omega) (by omega)
    · exact digit_or_sep_of_digit (j := 8) h1 (by omega) (by omega)

theorem matchLen_first_digit {l : List Char} {L : Nat} (h : matchLen l = some L) :
    ∃ c, gAt l 0 = some c ∧ c.isDigit = true := by
  rcases matchLen_cases h with ⟨hv, _⟩ | ⟨hv, _⟩ | ⟨hv, _⟩ | ⟨hv, _⟩ <;>
    [unfold varA at hv; unfold varB at hv; unfold varC at hv; unfold varD at hv] <;>
    simp only [Bool.and_eq_true] at hv <;>
    [exact digitsAt_spec hv.1.1.1.1.1 (show 0 < 3 by omega);
     exact digitsAt_spec hv.1.1.1 (show 0 < 3 by omega);
     exact digitsAt_spec hv.1.1.1 (show 0 < 5 by omega);
     exact digitsAt_spec hv.1 (show 0 < 9 by omega)]

theorem matchLen_last_digit {l : List Char} {L : Nat} (h : matchLen l = some L) :
    ∃ c, gAt l (L-1) = some c ∧ c.isDigit = true := by
  rcases matchLen_cases h with ⟨hv, rfl⟩ | ⟨hv, rfl⟩ | ⟨hv, rfl⟩ | ⟨hv, rfl⟩ <;>
    [unfold varA at hv; unfold varB at hv; unfold varC at hv; unfold varD at hv] <;>
    simp only [Bool.and_eq_true] at hv
  · obtain ⟨c, hc, hd⟩ := digitsAt_spec hv.1.2 (show 3 < 4 by omega)
    exact ⟨c, by simpa using hc, hd⟩
  · obtain ⟨c, hc, hd⟩ := digitsAt_spec hv.1.2 (show 5 < 6 by omega)
    exact ⟨c, by simpa using hc, hd⟩
  · obtain ⟨c, hc, hd⟩ := digitsAt_spec hv.1.2 (show 3 < 4 by omega)
    exact ⟨c, by simpa using hc, hd⟩
  · obtain ⟨c, hc, hd⟩ := digitsAt_spec hv.1 (show 8 < 9 by omega)
    exact ⟨c, by simpa using hc, hd⟩

theorem matchLen_bdry {l : List Char} {L : Nat} (h : matchLen l = some L) :
    noWordAt l L = true := by
  rcases matchLen_cases h with ⟨hv, rfl⟩ | ⟨hv, rfl⟩ | ⟨hv, rfl⟩ | ⟨hv, rfl⟩ <;>
    [unfold varA at hv; unfold varB at hv; unfold varC at hv; unfold varD at hv] <;>
    simp only [Bool.and_eq_true] at hv
  · exact hv.2
  · exact hv.2
  · exact hv.2
  · exact hv.2

theorem word_of_digit {c : Char} (h : c.isDigit = true) : isWordChar c = true := by
  simp [isWordChar, Char.isAlphanum, h]

theorem digit_false_of_not_word {c : Char} (h : isWordChar c = false) : c.isDigit = false := by
  revert h
  simp [isWordChar, Char.isAlphanum]
  intro _ h _
  exact h

theorem matchLen_none_of_head {l : List Char}
    (h : ∀ c, gAt l 0 = some c → c.isDigit = false) : matchLen l = none := by
  cases hm : matchLen l with
  | none => rfl
  | some L =>
    obtain ⟨c, hc, hd⟩ := matchLen_first_digit hm
    rw [h c hc] at hd
    exact absurd hd (by simp)

theorem matchLen_cons_nondigit {x : Char} {t : List Char} (hx : x.isDigit = false) :
    matchLen (x :: t) = none := by
  refine matchLen_none_of_head ?_
  intro c hc
  injection hc with hc
  rw [← hc]
  exact hx

theorem digitsAt_transfer {l₁ l₂ : List Char} {i n m : Nat} (hm : i + n ≤ m)
    (h : ∀ j, j < m → gAt l₁ j = gAt l₂ j) (hd : digitsAt l₁ i n = true) :
    digitsAt l₂ i n = true := by
  unfold digitsAt at hd ⊢
  rw [List.all_eq_true] at hd ⊢
  intro j hj
  have hjn := List.mem_range.mp hj
  rw [← h (i+j) (by omega)]
  exact hd j hj

theorem sepAt_transfer {l₁ l₂ : List Char} {i m : Nat} (hm : i < m)
    (h : ∀ j, j < m → gAt l₁ j = gAt l₂ j) (hd : sepAt l₁ i = true) : sepAt l₂ i = true := by
  unfold sepAt at hd ⊢
  rw [← h i hm]
  exact hd

theorem noWordAt_transfer {l₁ l₂ : List Char} {i m : Nat} (hm : i < m)
    (h : ∀ j, j < m → gAt l₁ j = gAt l₂ j) (hd : noWordAt l₁ i = true) : noWordAt l₂ i = true := by
  unfold noWordAt at hd ⊢
  rw [← h i hm]
  exact hd

theorem varA_transfer {l₁ l₂ : List Char} (h : ∀ j, j ≤ 11 → gAt l₁ j = gAt l₂ j)
    (hv : varA l₁ = true) : varA l₂ = true := by
  unfold varA at hv ⊢
  simp only [Bool.and_eq_true] at hv ⊢
  obtain ⟨⟨⟨⟨⟨h1, h2⟩, h3⟩, h4⟩, h5⟩, h6⟩ := hv
  have h12 : ∀ j, j < 12 → gAt l₁ j = gAt l₂ j := fun j hj => h j (by omega)
  exact ⟨⟨⟨⟨⟨digitsAt_transfer (by omega) h12 h1, sepAt_transfer (by omega) h12 h2⟩,
    digitsAt_transfer (by omega) h12 h3⟩, sepAt_transfer (by omega) h12 h4⟩,
    digitsAt_transfer (by omega) h12 h5⟩, noWordAt_transfer (by omega) h12 h6⟩

theorem varB_transfer {l₁ l₂ : List Char} (h : ∀ j, j ≤ 10 → gAt l₁ j = gAt l₂ j)
    (hv : varB l₁ = true) : varB l₂ = true := by
  unfold varB at hv ⊢
  simp only [Bool.and_eq_true] at hv ⊢
  obtain ⟨⟨⟨h1, h2⟩, h3⟩, h4⟩ := hv
  have h11 : ∀ j, j < 11 → gAt l₁ j = gAt l₂ j := fun j hj => h j (by omega)
  exact ⟨⟨⟨digitsAt_transfer (by omega) h11 h1, sepAt_transfer (by omega) h11 h2⟩,
    digitsAt_transfer (by omega) h11 h3⟩, noWordAt_transfer (by omega) h11 h4⟩

theorem varC_transfer {l₁ l₂ : List Char} (h : ∀ j, j ≤ 10 → gAt l₁ j = gAt l₂ j)
    (hv : varC l₁ = true) : varC l₂ = true := by
  unfold varC at hv ⊢
  simp only [Bool.and_eq_true] at hv ⊢
  obtain ⟨⟨⟨h1, h2⟩, h3⟩, h4⟩ := hv
  have h11 : ∀ j, j < 11 → gAt l₁ j = gAt l₂ j := fun j hj => h j (by omega)
  exact ⟨⟨⟨digitsAt_transfer (by omega) h11 h1, sepAt_transfer (by omega) h11 h2⟩,
    digitsAt_transfer (by omega) h11 h3⟩, noWordAt_transfer (by omega) h11 h4⟩

theorem varD_transfer {l₁ l₂ : List Char} (h : ∀ j, j ≤ 9 → gAt l₁ j = gAt l₂ j)
    (hv : varD l₁ = true) : varD l₂ = true := by
  unfold varD at hv ⊢
  simp only [Bool.and_eq_true] at hv ⊢
  obtain ⟨h1, h2⟩ := hv
  have h10 : ∀ j, j < 10 → gAt l₁ j = gAt l₂ j := fun j hj => h j (by omega)
  exact ⟨digitsAt_transfer (by omega) h10 h1, noWordAt_transfer (by omega) h10 h2⟩

theorem ssnMaskF_irrel : ∀ (f f' : Nat) (l : List Char) (pw : Bool),
    l.length ≤ f → l.length ≤ f' → ssnMaskF f pw l = ssnMaskF f' pw l := by
  intro f
  induction f with
  | zero =>
    intro f' l pw h _
    have hl : l = [] := List.length_eq_zero.mp (Nat.le_zero.mp h)
    subst hl
    cases f' <;> rfl
  | succ f ih =>
    intro f' l pw h h'
    cases l with
    | nil => cases f' <;> rfl
    | cons c rest =>
      simp only [List.length_cons] at h h'
      cases f' with
      | zero => omega
      | succ f'' =>
        show ssnMaskF (f+1) pw (c :: rest) = ssnMaskF (f''+1) pw (c :: rest)
        simp only [ssnMaskF]
        cases pw with
        | true =>
          simp only [eq_self_iff_true, if_true]
          rw [ih f'' rest (isWordChar c) (by omega) (by omega)]
        | false =>
          simp only [Bool.false_eq_true, if_false]
          cases hm : matchLen (c :: rest) with
          | none => rw [ih f'' rest (isWordChar c) (by omega) (by omega)]
          | some L =>
            have hd : (rest.drop (L-1)).length ≤ rest.length := by
              simp [List.length_drop]
            show tokSSN ++ ssnMaskF f true (rest.drop (L - 1)) =
              tokSSN ++ ssnMaskF f'' true (rest.drop (L - 1))
            rw [ih f'' (rest.drop (L-1)) true (by omega) (by omega)]

theorem ssnFindallF_irrel : ∀ (f f' : Nat) (l : List Char) (pw : Bool),
    l.length ≤ f → l.length ≤ f' → ssnFindallF f pw l = ssnFindallF f' pw l := by
  intro f
  induction f with
  | zero =>
    intro f' l pw h _
    have hl : l = [] := List.length_eq_zero.mp (Nat.le_zero.mp h)
    subst hl
    cases f' <;> rfl
  | succ f ih =>
    intro f' l pw h h'
    cases l with
    | nil => cases f' <;> rfl
    | cons c rest =>
      simp only [List.length_cons] at h h'
      cases f' with
      | zero => omega
      | succ f'' =>
        show ssnFindallF (f+1) pw (c :: rest) = ssnFindallF (f''+1) pw (c :: rest)
        simp only [ssnFindallF]
        cases pw with
        | true =>
          simp only [eq_self_iff_true, if_true]
          rw [ih f'' rest (isWordChar c) (by omega) (by omega)]
        | false =>
          simp only [Bool.false_eq_true, if_false]
          cases hm : matchLen (c :: rest) with
          | none => rw [ih f'' rest (isWordChar c) (by omega) (by omega)]
          | some L =>
            have hd : (rest.drop (L-1)).length ≤ rest.length := by
              simp [List.length_drop]
            show (c :: rest).take L :: ssnFindallF f true (rest.drop (L - 1)) =
              (c :: rest).take L :: ssnFindallF f'' true (rest.drop (L - 1))
            rw [ih f'' (rest.drop (L-1)) true (by omega) (by omega)]

theorem ssnMask_nil (pw : Bool) : ssnMask pw [] = [] := rfl

theorem ssnMask_cons_true (c : Char) (rest : List Char) :
    ssnMask true (c :: rest) = c :: ssnMask (isWordChar c) rest := rfl

theorem ssnMask_cons_none {c : Char} {rest : List Char} (hm : matchLen (c :: rest) = none) :
    ssnMask false (c :: rest) = c :: ssnMask (isWordChar c) rest := by
  show ssnMaskF (rest.length + 1) false (c :: rest) = _
  simp only [ssnMaskF, if_false, hm]
  rfl

theorem ssnMask_cons_some {c : Char} {rest : List Char} {L : Nat}
    (hm : matchLen (c :: rest) = some L) :
    ssnMask false (c :: rest) = tokSSN ++ ssnMask true (rest.drop (L - 1)) := by
  show ssnMaskF (rest.length + 1) false (c :: rest) = _
  simp only [ssnMaskF, Bool.false_eq_true, if_false, hm]
  congr 1
  show ssnMaskF rest.length true (rest.drop (L - 1)) =
    ssnMaskF (rest.drop (L - 1)).length true (rest.drop (L - 1))
  exact ssnMaskF_irrel rest.length (rest.drop (L - 1)).length (rest.drop (L - 1)) true
    (by simp [List.length_drop]) (le_refl _)

theorem ssnFindall_nil (pw : Bool) : ssnFindall pw [] = [] := rfl

theorem ssnFindall_cons_true (c : Char) (rest : List Char) :
    ssnFindall true (c :: rest) = ssnFindall (isWordChar c) rest := rfl

theorem ssnFindall_cons_none {c : Char} {rest : List Char} (hm : matchLen (c :: rest) = none) :
    ssnFindall false (c :: rest) = ssnFindall (isWordChar c) rest := by
  show ssnFindallF (rest.length + 1) false (c :: rest) = _
  simp only [ssnFindallF, if_false, hm]
  rfl

theorem ssnFindall_cons_some {c : Char} {rest : List Char} {L : Nat}
    (hm : matchLen (c :: rest) = some L) :
    ssnFindall false (c :: rest) = (c :: rest).take L :: ssnFindall true (rest.drop (L - 1)) := by
  show ssnFindallF (rest.length + 1) false (c :: rest) = _
  simp only [ssnFindallF, Bool.false_eq_true, if_false, hm]
  congr 1
  show ssnFindallF rest.length true (rest.drop (L - 1)) =
    ssnFindallF (rest.drop (L - 1)).length true (rest.drop (L - 1))
  exact ssnFindallF_irrel rest.length (rest.drop (L - 1)).length (rest.drop (L - 1)) true
    (by simp [List.length_drop]) (le_refl _)

theorem Clean_nil_eq (pw : Bool) : Clean pw [] = True := rfl

theorem Clean_cons_eq (pw : Bool) (c : Char) (t : List Char) :
    Clean pw (c :: t) = ((pw = false → matchLen (c :: t) = none) ∧ Clean (isWordChar c) t) := rfl

theorem maskSpec_copy {c : Char} {rest : List Char} {pw : Bool}
    (hout : ssnMask pw (c :: rest) = c :: ssnMask (isWordChar c) rest)
    (prev : MaskSpec (isWordChar c) rest) : MaskSpec pw (c :: rest) := by
  unfold MaskSpec at prev ⊢
  rcases prev with heq | ⟨k, hpre, htok, hLex, hk0, hkj⟩
  · left
    rw [hout, heq]
  · right
    refine ⟨k+1, ?_, ?_, ?_, ?_, ?_⟩
    · intro j hj
      rw [hout]
      cases j with
      | zero => rfl
      | succ j' => exact hpre j' (by omega)
    · rw [hout]
      exact htok
    · obtain ⟨L0, hL0⟩ := hLex
      exact ⟨L0, hL0⟩
    · intro h
      exact absurd h (by omega)
    · intro j hj
      have hjk : j = k := by omega
      subst hjk
      cases j with
      | zero => exact ⟨c, rfl, hk0 rfl⟩
      | succ k' => exact hkj k' rfl

theorem maskFirstTok : ∀ (n : Nat) (l : List Char), l.length ≤ n → ∀ (pw : Bool), MaskSpec pw l := by
  intro n
  induction n with
  | zero =>
    intro l hl pw
    have hnl : l = [] := List.length_eq_zero.mp (Nat.le_zero.mp hl)
    subst hnl
    exact Or.inl (ssnMask_nil pw)
  | succ n ih =>
    intro l hl pw
    cases l with
    | nil => exact Or.inl (ssnMask_nil pw)
    | cons c rest =>
      simp only [List.length_cons] at hl
      have hrest : rest.length ≤ n := by omega
      cases pw with
      | true => exact maskSpec_copy (ssnMask_cons_true c rest) (ih rest hrest (isWordChar c))
      | false =>
        cases hm : matchLen (c :: rest) with
        | none => exact maskSpec_copy (ssnMask_cons_none hm) (ih rest hrest (isWordChar c))
        | some L =>
          unfold MaskSpec
          right
          refine ⟨0, fun j hj => absurd hj (by omega), ?_, ⟨L, hm⟩,
            fun _ => rfl, fun j hj => absurd hj (by omega)⟩
          rw [ssnMask_cons_some hm]
          rfl

theorem no_new_match {c : Char} {rest : List Char}
    (hor : matchLen (c :: rest) = none) :
    matchLen (c :: ssnMask (isWordChar c) rest) = none := by
  rcases maskFirstTok rest.length rest le_rfl (isWordChar c) with
    heq | ⟨k, hpre, htok, ⟨L0, hL0⟩, hk0, hkj⟩
  · rw [heq]
    exact hor
  · cases hM : matchLen (c :: ssnMask (isWordChar c) rest) with
    | none => rfl
    | some M =>
      exfalso
      have hM9 : 9 ≤ M := matchLen_ge hM
      rcases Nat.lt_trichotomy M (k+1) with hlt | heq1 | hgt
      · have hagree : ∀ j, j ≤ M → gAt (c :: ssnMask (isWordChar c) rest) j = gAt (c :: rest) j := by
          intro j hj
          cases j with
          | zero => rfl
          | succ j' => exact hpre j' (by omega)
        rcases matchLen_cases hM with ⟨hv, rfl⟩ | ⟨hv, rfl⟩ | ⟨hv, rfl⟩ | ⟨hv, rfl⟩
        · exact matchLen_ne_none_of_var (Or.inl (varA_transfer hagree hv)) hor
        · exact matchLen_ne_none_of_var (Or.inr (Or.inl (varB_transfer hagree hv))) hor
        · exact matchLen_ne_none_of_var (Or.inr (Or.inr (Or.inl (varC_transfer hagree hv)))) hor
        · exact matchLen_ne_none_of_var (Or.inr (Or.inr (Or.inr (varD_transfer hagree hv)))) hor
      · have hk1 : 1 ≤ k := by omega
        obtain ⟨d, hd, hdw⟩ := hkj (k-1) (by omega)
        obtain ⟨e, he, hed⟩ := matchLen_last_digit hM
        have hstep : M - 1 = (k-1) + 1 := by omega
        rw [hstep] at he
        have hme : gAt (ssnMask (isWordChar c) rest) (k-1) = some e := he
        rw [hpre (k-1) (by omega)] at hme
        rw [hd] at hme
        injection hme with hme
        rw [hme] at hdw
        rw [word_of_digit hed] at hdw
        exact absurd hdw (by simp)
      · obtain ⟨e, he, hde⟩ := matchLen_span hM (show k+1 < M by omega)
        have hek : gAt (ssnMask (isWordChar c) rest) k = some e := he
        rw [htok] at hek
        injection hek with hek
        rw [← hek] at hde
        exact absurd hde (by decide)

theorem maskCleanAux : ∀ (n : Nat) (l : List Char), l.length ≤ n → ∀ (pw cw : Bool),
    (cw = true → pw = true) →
    (pw = true → cw = false → ∀ c, gAt l 0 = some c → isWordChar c = false) →
    Clean cw (ssnMask pw l) := by
  intro n
  induction n with
  | zero =>
    intro l hl pw cw _ _
    have hnl : l = [] := List.length_eq_zero.mp (Nat.le_zero.mp hl)
    subst hnl
    rw [ssnMask_nil]
    trivial
  | succ n ih =>
    intro l hl pw cw h1 h2
    cases l with
    | nil =>
      rw [ssnMask_nil]
      trivial
    | cons c rest =>
      simp only [List.length_cons] at hl
      have hrest : rest.length ≤ n := by omega
      cases pw with
      | true =>
        rw [ssnMask_cons_true]
        refine ⟨?_, ?_⟩
        · intro hcw
          have hw : isWordChar c = false := h2 rfl hcw c rfl
          exact matchLen_cons_nondigit (digit_false_of_not_word hw)
        · exact ih rest hrest (isWordChar c) (isWordChar c) (fun h => h)
            (fun ha hb => absurd (ha ▸ hb) (by simp))
      | false =>
        cases hm : matchLen (c :: rest) with
        | none =>
          rw [ssnMask_cons_none hm]
          refine ⟨?_, ?_⟩
          · intro _
            exact no_new_match hm
          · exact ih rest hrest (isWordChar c) (isWordChar c) (fun h => h)
              (fun ha hb => absurd (ha ▸ hb) (by simp))
        | some L =>
          rw [ssnMask_cons_some hm]
          refine ⟨fun _ => matchLen_cons_nondigit (by decide),
            fun _ => matchLen_cons_nondigit (by decide),
            fun _ => matchLen_cons_nondigit (by decide),
            fun _ => matchLen_cons_nondigit (by decide),
            fun _ => matchLen_cons_nondigit (by decide), ?_⟩
          show Clean false (ssnMask true (rest.drop (L - 1)))
          refine ih (rest.drop (L-1)) (by simp [List.length_drop]; omega) true false
            (fun h => absurd h (by simp)) ?_
          intro _ _ d hd
          have hb := matchLen_bdry hm
          have hL1 : 9 ≤ L := matchLen_ge hm
          rw [gAt_drop] at hd
          have hgd : gAt (c :: rest) L = some d := by
            have h9 : L = (L-1) + 1 := by omega
            rw [h9, gAt_cons_succ]
            simpa using hd
          unfold noWordAt at hb
          rw [hgd] at hb
          simpa using hb

theorem mask_clean (l : List Char) : Clean false (ssnMask false l) :=
  maskCleanAux l.length l le_rfl false false (fun h => absurd h (by simp))
    (fun h => absurd h (by simp))

theorem ssnMask_of_clean : ∀ (l : List Char) (pw : Bool), Clean pw l → ssnMask pw l = l := by
  intro l
  induction l with
  | nil =>
    intro pw _
    exact ssnMask_nil pw
  | cons c rest ih =>
    intro pw hc
    obtain ⟨hc1, hc2⟩ := hc
    cases pw with
    | true => rw [ssnMask_cons_true, ih (isWordChar c) hc2]
    | false => rw [ssnMask_cons_none (hc1 rfl), ih (isWordChar c) hc2]

theorem mask_idem (l : List Char) : ssnMask false (ssnMask false l) = ssnMask false l :=
  ssnMask_of_clean _ false (mask_clean l)

theorem ssnFindall_nil_iff : ∀ (n : Nat) (l : List Char), l.length ≤ n → ∀ (pw : Bool),
    (ssnFindall pw l = [] ↔ Clean pw l) := by
  intro n
  induction n with
  | zero =>
    intro l hl pw
    have hnl : l = [] := List.length_eq_zero.mp (Nat.le_zero.mp hl)
    subst hnl
    rw [ssnFindall_nil, Clean_nil_eq]
    simp
  | succ n ih =>
    intro l hl pw
    cases l with
    | nil =>
      rw [ssnFindall_nil, Clean_nil_eq]
      simp
    | cons c rest =>
      simp only [List.length_cons] at hl
      have hrest : rest.length ≤ n := by omega
      cases pw with
      | true =>
        rw [ssnFindall_cons_true, Clean_cons_eq, ih rest hrest (isWordChar c)]
        simp
      | false =>
        cases hm : matchLen (c :: rest) with
        | none =>
          rw [ssnFindall_cons_none hm, Clean_cons_eq, ih rest hrest (isWordChar c)]
          simp [hm]
        | some L =>
          rw [ssnFindall_cons_some hm, Clean_cons_eq]
          simp [hm]

theorem ssnFindall_mask_nil (l : List Char) : ssnFindall false (ssnMask false l) = [] :=
  (ssnFindall_nil_iff (ssnMask false l).length _ le_rfl false).mpr (mask_clean l)

theorem maskSSNStr_idem (s : String) : maskSSNStr (maskSSNStr s) = maskSSNStr s := by
  show String.mk (ssnMask false (ssnMask false s.data)) = String.mk (ssnMask false s.data)
  exact congrArg String.mk (mask_idem s.data)

/-- Claim C3: with `mode=authorized` and `authorized=false`, `enforce`
    returns text with zero SSN-pattern matches (each occurrence replaced by
    the `[SSN]` token), even when `grounded=true`; and the unmodified-text
    branch is taken exactly when `authorized AND grounded`. -/
theorem c3_authorized_gate (text : String) (g : Bool) :
    ssnFindall false (PrivacyPolicy.enforce text DisclosureMode.Authorized g false).data = [] ∧
    ∀ a : Bool, PrivacyPolicy.enforce text DisclosureMode.Authorized g a =
      if a && g then text else maskSSNStr text := by
  constructor
  · show ssnFindall false (ssnMask false text.data) = []
    exact ssnFindall_mask_nil text.data
  · intro a
    rfl

/-- Claim C4: for text containing an SSN-pattern substring, `enforce` with
    `mode=redacted` yields text with zero SSN-pattern matches, for every
    combination of the grounded/authorized flags. -/
theorem c4_redacted_masks (text : String) (g a : Bool)
    (_h : ssnFindall false text.data ≠ []) :
    ssnFindall false (PrivacyPolicy.enforce text DisclosureMode.Redacted g a).data = [] := by
  show ssnFindall false (ssnMask false text.data) = []
  exact ssnFindall_mask_nil text.data

theorem c4_redacted_masks_witness :
    ssnFindall false ("my ssn is 123-45-6789").data ≠ [] ∧
    ssnFindall false
      (PrivacyPolicy.enforce ("my ssn is 123-45-6789") DisclosureMode.Redacted true true).data = [] :=
  ⟨by decide, c4_redacted_masks ("my ssn is 123-45-6789") true true (by decide)⟩

/-- Claim C5: `enforce` is idempotent — applying it twice with the same
    mode and flags equals applying it once, for every mode. -/
theorem c5_enforce_idem (text : String) (m : DisclosureMode) (g a : Bool) :
    PrivacyPolicy.enforce (PrivacyPolicy.enforce text m g a) m g a =
      PrivacyPolicy.enforce text m g a := by
  cases m with
  | Open => rfl
  | Authorized =>
    by_cases hag : (a && g) = true
    · simp [PrivacyPolicy.enforce, hag]
    · simp [PrivacyPolicy.enforce, hag, maskSSNStr_idem]
  | Redacted =>
    show PrivacyPolicy.enforce (maskSSNStr text) DisclosureMode.Redacted g a = _
    show maskSSNStr (maskSSNStr text) = maskSSNStr text
    exact maskSSNStr_idem text

theorem lookup_append_some : ∀ (ps qs : List (String × String)) (n v : String),
    ps.lookup n = some v → (ps ++ qs).lookup n = some v := by
  intro ps qs n v h
  induction ps with
  | nil => simp [List.lookup] at h
  | cons p ps ih =>
    rcases p with ⟨k, w⟩
    by_cases hk : n == k
    · simp [List.lookup, hk] at h ⊢
      exact h
    · simp only [List.cons_append, List.lookup, hk] at h ⊢
      exact ih h

theorem lookup_append_ne : ∀ (ps : List (String × String)) (m n w : String), n ≠ m →
    (ps ++ [(m, w)]).lookup n = ps.lookup n := by
  intro ps m n w hne
  have hb : (n == m) = false := beq_eq_false_iff_ne.mpr hne
  induction ps with
  | nil => simp [List.lookup, hb]
  | cons p ps ih =>
    rcases p with ⟨k, u⟩
    by_cases hk : n == k
    · simp [List.lookup, hk]
    · simp only [List.cons_append, List.lookup, hk]
      exact ih

theorem lookup_append_self : ∀ (ps : List (String × String)) (n w : String),
    ps.lookup n = none → (ps ++ [(n, w)]).lookup n = some w := by
  intro ps n w h
  induction ps with
  | nil => simp [List.lookup]
  | cons p ps ih =>
    rcases p with ⟨k, u⟩
    by_cases hk : n == k
    · simp [List.lookup, hk] at h
    · simp only [List.cons_append, List.lookup, hk] at h ⊢
      exact ih h

theorem sdefault_preserves {ps : List (String × String)} {k v n w : String}
    (h : ps.lookup n = some w) : (sdefault ps k v).lookup n = some w := by
  unfold sdefault
  split_ifs
  · exact h
  · exact lookup_append_some ps [(k, v)] n w h

theorem sdefault_lookup_ne {ps : List (String × String)} {k v n : String} (hne : n ≠ k) :
    (sdefault ps k v).lookup n = ps.lookup n := by
  unfold sdefault
  split_ifs
  · rfl
  · exact lookup_append_ne ps k n v hne

theorem sdefault_self {ps : List (String × String)} {n v : String}
    (h : ps.lookup n = none) : (sdefault ps n v).lookup n = some v := by
  unfold sdefault
  split_ifs with hs
  · rw [h] at hs
    simp at hs
  · exact lookup_append_self ps n v h

theorem namesFold_preserves : ∀ (names : List String) (ps : List (String × String))
    (v n w : String), ps.lookup n = some w →
    (names.foldl (fun acc m => sdefault acc m v) ps).lookup n = some w := by
  intro names
  induction names with
  | nil => intro ps v n w h; exact h
  | cons m names ih =>
    intro ps v n w h
    exact ih _ v n w (sdefault_preserves h)

theorem namesFold_mem : ∀ (names : List String) (ps : List (String × String)) (v n : String),
    ps.lookup n = none → n ∈ names →
    (names.foldl (fun acc m => sdefault acc m v) ps).lookup n = some v := by
  intro names
  induction names with
  | nil =>
    intro ps v n _ hmem
    simp at hmem
  | cons m names ih =>
    intro ps v n hnone hmem
    by_cases hnm : n = m
    · subst hnm
      exact namesFold_preserves names _ v n v (sdefault_self hnone)
    · rcases List.mem_cons.mp hmem with heq | hmem'
      · exact absurd heq hnm
      · exact ih _ v n (by rw [sdefault_lookup_ne hnm]; exact hnone) hmem'

theorem namesFold_not_mem : ∀ (names : List String) (ps : List (String × String))
    (v n : String), n ∉ names →
    (names.foldl (fun acc m => sdefault acc m v) ps).lookup n = ps.lookup n := by
  intro names
  induction names with
  | nil => intro ps v n _; rfl
  | cons m names ih =>
    intro ps v n hmem
    have hnm : n ≠ m := fun h => hmem (h ▸ List.mem_cons_self m names)
    have hrest : n ∉ names := fun h => hmem (List.mem_cons_of_mem m h)
    show (names.foldl (fun acc m => sdefault acc m v) (sdefault ps m v)).lookup n = ps.lookup n
    rw [ih (sdefault ps m v) v n hrest, sdefault_lookup_ne hnm]

theorem lineStep_preserves (ps : List (String × String)) (line : String) (n w : String)
    (h : ps.lookup n = some w) : (lineStep ps line).lookup n = some w := by
  unfold lineStep
  cases hs : ssnFindall false line.data with
  | nil => exact h
  | cons s0 rest =>
    cases hn : extract_candidate_names line with
    | nil => exact h
    | cons m names => exact namesFold_preserves (m :: names) ps ⟨s0⟩ n w h

theorem lineStep_binds (ps : List (String × String)) (line : String) (n v : String)
    (hnone : ps.lookup n = none) (hq : lineQualSSN n line = some v) :
    (lineStep ps line).lookup n = some v := by
  unfold lineStep
  unfold lineQualSSN at hq
  cases hs : ssnFindall false line.data with
  | nil =>
    rw [hs] at hq
    simp at hq
  | cons s0 rest =>
    rw [hs] at hq
    split_ifs at hq with hmem
    injection hq with hq
    subst hq
    cases hn : extract_candidate_names line with
    | nil =>
      rw [hn] at hmem
      simp at hmem
    | cons m names =>
      refine namesFold_mem (m :: names) ps ⟨s0⟩ n hnone ?_
      rw [hn] at hmem
      exact hmem

theorem lineStep_skips (ps : List (String × String)) (line : String) (n : String)
    (hq : lineQualSSN n line = none) : (lineStep ps line).lookup n = ps.lookup n := by
  unfold lineStep
  unfold lineQualSSN at hq
  cases hs : ssnFindall false line.data with
  | nil => rfl
  | cons s0 rest =>
    rw [hs] at hq
    split_ifs at hq with hmem
    cases hn : extract_candidate_names line with
    | nil => rfl
    | cons m names =>
      refine namesFold_not_mem (m :: names) ps ⟨s0⟩ n ?_
      rw [hn] at hmem
      exact hmem

theorem pass1_fold : ∀ (lines : List String) (ps : List (String × String)) (n v : String),
    (ps.lookup n = none → firstLineSSN lines n = some v →
      (lines.foldl lineStep ps).lookup n = some v) ∧
    (ps.lookup n = some v → (lines.foldl lineStep ps).lookup n = some v) := by
  intro lines
  induction lines with
  | nil =>
    intro ps n v
    constructor
    · intro _ hf
      simp [firstLineSSN] at hf
    · intro h
      exact h
  | cons line lines ih =>
    intro ps n v
    constructor
    · intro hnone hf
      unfold firstLineSSN at hf
      rw [List.findSome?_cons] at hf
      cases hq : lineQualSSN n line with
      | none =>
        rw [hq] at hf
        have hf' : firstLineSSN lines n = some v := hf
        rw [List.foldl_cons]
        refine (ih (lineStep ps line) n v).1 ?_ hf'
        rw [lineStep_skips ps line n hq]
        exact hnone
      | some w =>
        rw [hq] at hf
        have hwv : some w = some v := hf
        injection hwv with hwv
        subst hwv
        rw [List.foldl_cons]
        exact (ih (lineStep ps line) n w).2 (lineStep_binds ps line n w hnone hq)
    · intro hsome
      rw [List.foldl_cons]
      exact (ih (lineStep ps line) n v).2 (lineStep_preserves ps line n v hsome)

theorem proxStep_preserves {u : List Char} {ps : List (String × String)} {name n w : String}
    (h : ps.lookup n = some w) : (proxStep u ps name).lookup n = some w := by
  unfold proxStep
  split_ifs
  · exact h
  · cases hp : proximityFind u name.data with
    | none => exact h
    | some v => exact lookup_append_some ps [(name, ⟨v⟩)] n w h

theorem pass2_preserves : ∀ (names : List String) (u : List Char)
    (ps : List (String × String)) (n w : String), ps.lookup n = some w →
    (names.foldl (proxStep u) ps).lookup n = some w := by
  intro names
  induction names with
  | nil => intro u ps n w h; exact h
  | cons name names ih =>
    intro u ps n w h
    exact ih u _ n w (proxStep_preserves h)

/-- Claim C6: in `build_name_ssn_pairs_from_docs`, a candidate name that
    co-occurs with an SSN on some line is bound to the first SSN of the
    first such line (first-writer-wins, never overwritten by a later line),
    and the proximity pass runs only for names the same-line pass left
    unresolved, so this binding survives into the returned mapping. -/
theorem c6_sameline_first_writer (docs : List Doc) (n v : String)
    (h : firstLineSSN (splitLinesPy (upperOfDocs docs)) n = some v) :
    (build_name_ssn_pairs_from_docs docs).lookup n = some v := by
  unfold build_name_ssn_pairs_from_docs
  refine pass2_preserves (extract_candidate_names (upperOfDocs docs)) (upperOfDocs docs).data
    (pass1 (splitLinesPy (upperOfDocs docs))) n v ?_
  exact (pass1_fold (splitLinesPy (upperOfDocs docs)) [] n v).1 rfl h

theorem c6_sameline_first_writer_witness :
    firstLineSSN (splitLinesPy (upperOfDocs [pairDoc])) ("JOHN SMITH") = some ("111-22-3333") ∧
    (build_name_ssn_pairs_from_docs [pairDoc]).lookup ("JOHN SMITH") = some ("111-22-3333") :=
  ⟨by decide, c6_sameline_first_writer [pairDoc] "JOHN SMITH" "111-22-3333" (by decide)⟩

/-- Claim C7, counterexample: the orchestrator does not supply the candidate
    list in alphabetical order — it passes `list(pairs.keys())` in key
    insertion order, which for this document differs from sorted order. -/
theorem c7_counterexample :
    askCandidates [zaDoc] = ["ZED ADAMS", "ANN BEE"] ∧
    sortStrs (askCandidates [zaDoc]) = ["ANN BEE", "ZED ADAMS"] ∧
    askCandidates [zaDoc] ≠ sortStrs (askCandidates [zaDoc]) :=
  ⟨by decide, by decide, by decide⟩

theorem find?_eq_specFirstContain (t : String) : ∀ (cs : List String),
    (cs.find? fun c => isSubstr t.data c.data || isSubstr c.data t.data) =
      specFirstContain t cs := by
  intro cs
  induction cs with
  | nil => rfl
  | cons c rest ih =>
    by_cases hc : (isSubstr t.data c.data || isSubstr c.data t.data) = true
    · simp [List.find?, specFirstContain, hc]
    · simp [List.find?, specFirstContain, hc, ih]

/-- Claim C7 (amended): `best_name_match` follows the policy of the spec —
    the normalized target itself on exact membership, else the first
    candidate in list order with substring containment either way, else
    nothing; `match("SMITH", ["JOHN SMITH", "JANE DOE"])` resolves to
    "JOHN SMITH" by containment; but the orchestrator supplies the
    candidates in pair-insertion order, not alphabetically. -/
theorem c7_match_policy :
    (∀ (target : String) (cs : List String), target ≠ "" →
      best_name_match target cs = specNameMatch (normalize_name target) cs) ∧
    best_name_match ("SMITH") ["JOHN SMITH", "JANE DOE"] = some ("JOHN SMITH") ∧
    askCandidates [zaDoc] = (build_name_ssn_pairs_from_docs [zaDoc]).map Prod.fst := by
  refine ⟨?_, by decide, rfl⟩
  intro target cs htne
  unfold best_name_match specNameMatch
  rw [if_neg htne]
  by_cases hmem : normalize_name target ∈ cs
  · rw [if_pos hmem, if_pos hmem]
  · rw [if_neg hmem, if_neg hmem]
    exact find?_eq_specFirstContain (normalize_name target) cs

theorem c7_match_policy_witness :
    best_name_match ("SMITH") ["JOHN SMITH"] =
      specNameMatch (normalize_name ("SMITH")) ["JOHN SMITH"] :=
  c7_match_policy.1 ("SMITH") ["JOHN SMITH"] (by decide)

/-- Claim C9: a returned match is always an element of the candidate list,
    and the empty target never matches. -/
theorem c9_membership :
    (∀ (t : String) (cs : List String) (v : String),
      best_name_match t cs = some v → v ∈ cs) ∧
    (∀ cs : List String, best_name_match ("") cs = none) := by
  constructor
  · intro t cs v h
    unfold best_name_match at h
    by_cases ht : t = ""
    · rw [if_pos ht] at h
      exact absurd h (by simp)
    · rw [if_neg ht] at h
      by_cases hmem : normalize_name t ∈ cs
      · rw [if_pos hmem] at h
        injection h with h
        exact h ▸ hmem
      · rw [if_neg hmem] at h
        exact List.mem_of_find?_eq_some h
  · intro cs
    unfold best_name_match
    rw [if_pos rfl]

theorem c9_membership_witness :
    "JOHN SMITH" ∈ ["JOHN SMITH", "JANE DOE"] ∧ best_name_match ("") ["AB CD"] = none :=
  ⟨c9_membership.1 ("SMITH") ["JOHN SMITH", "JANE DOE"] ("JOHN SMITH") (by decide),
   c9_membership.2 ["AB CD"]⟩

theorem charLe_iff {a b : Char} : a ≤ b ↔ a.toNat ≤ b.toNat := Iff.rfl

theorem char_toNat_ofNat {n : Nat} (h : n.isValidChar) : (Char.ofNat n).toNat = n := by
  rw [Char.ofNat, dif_pos h]
  rfl

theorem isUpperAZ_toNat {c : Char} (h : isUpperAZ c = true) :
    65 ≤ c.toNat ∧ c.toNat ≤ 90 := by
  unfold isUpperAZ at h
  have h' := of_decide_eq_true h
  exact ⟨charLe_iff.mp h'.1, charLe_iff.mp h'.2⟩

theorem isUpperAZ_of_toNat {c : Char} (h1 : 65 ≤ c.toNat) (h2 : c.toNat ≤ 90) :
    isUpperAZ c = true := by
  unfold isUpperAZ
  exact decide_eq_true ⟨charLe_iff.mpr h1, charLe_iff.mpr h2⟩

theorem toUpper_fix {c : Char} (h : (isUpperAZ c || c == ' ') = true) :
    Char.toUpper c = c := by
  have hn : c.toNat ≤ 90 ∨ c.toNat = 32 := by
    rw [Bool.or_eq_true] at h
    rcases h with h1 | h2
    · exact Or.inl (isUpperAZ_toNat h1).2
    · right
      rw [eq_of_beq h2]
      rfl
  simp only [Char.toUpper]
  rw [if_neg]
  rintro ⟨h97, _⟩
  omega

theorem pyIsSpace_space_toNat {c : Char} (h : pyIsSpace c = true) : c.toNat ≤ 32 := by
  unfold pyIsSpace at h
  simp only [Bool.or_eq_true] at h
  rcases h with ((((h | h) | h) | h) | h) | h <;> rw [eq_of_beq h] <;> decide

theorem upper_not_pySpace {c : Char} (h : isUpperAZ c = true) : pyIsSpace c = false := by
  cases hs : pyIsSpace c with
  | false => rfl
  | true =>
    have h1 := (isUpperAZ_toNat h).1
    have h2 := pyIsSpace_space_toNat hs
    omega

theorem beq_space_false_of_not_space {c : Char} (h : pyIsSpace c = false) :
    (c == ' ') = false := by
  cases hb : (c == ' ') with
  | false => rfl
  | true =>
    rw [eq_of_beq hb] at h
    exact absurd h (by decide)

theorem isAlpha_toNat {c : Char} (h : isAsciiAlphaChar c = true) :
    (65 ≤ c.toNat ∧ c.toNat ≤ 90) ∨ (97 ≤ c.toNat ∧ c.toNat ≤ 122) := by
  unfold isAsciiAlphaChar at h
  have h' : (c.isUpper || c.isLower) = true := h
  rw [Bool.or_eq_true] at h'
  rcases h' with hu | hl
  · left
    have hu' : (decide (65 ≤ c.val) && decide (c.val ≤ 90)) = true := hu
    rw [Bool.and_eq_true] at hu'
    obtain ⟨ha, hb⟩ := hu'
    exact ⟨of_decide_eq_true ha, of_decide_eq_true hb⟩
  · right
    have hl' : (decide (97 ≤ c.val) && decide (c.val ≤ 122)) = true := hl
    rw [Bool.and_eq_true] at hl'
    obtain ⟨ha, hb⟩ := hl'
    exact ⟨of_decide_eq_true ha, of_decide_eq_true hb⟩

theorem toUpper_upper {c : Char} (ha : isAsciiAlphaChar c = true) :
    isUpperAZ (Char.toUpper c) = true := by
  rcases isAlpha_toNat ha with ⟨h1, h2⟩ | ⟨h1, h2⟩
  · have hfix : Char.toUpper c = c := by
      simp only [Char.toUpper]
      rw [if_neg]
      rintro ⟨h97, _⟩
      omega
    rw [hfix]
    exact isUpperAZ_of_toNat h1 h2
  · have hup : Char.toUpper c = Char.ofNat (c.toNat - 32) := by
      simp only [Char.toUpper]
      rw [if_pos ⟨h1, h2⟩]
    have hvalid : (c.toNat - 32).isValidChar := Or.inl (by omega)
    have htn : (Char.ofNat (c.toNat - 32)).toNat = c.toNat - 32 := char_toNat_ofNat hvalid
    rw [hup]
    exact isUpperAZ_of_toNat (by omega) (by omega)

theorem toUpper_shape {c : Char} (h : (isAsciiAlphaChar c || c == ' ') = true) :
    (isUpperAZ (Char.toUpper c) || Char.toUpper c == ' ') = true := by
  rw [Bool.or_eq_true] at h
  rcases h with ha | hs
  · rw [Bool.or_eq_true]
    exact Or.inl (toUpper_upper ha)
  · rw [eq_of_beq hs]
    decide

theorem alpha_ne_space {c : Char} (ha : isAsciiAlphaChar c = true) : (c == ' ') = false := by
  cases hb : (c == ' ') with
  | false => rfl
  | true =>
    rw [eq_of_beq hb] at ha
    exact absurd ha (by decide)

theorem upper_space_iff {c : Char} (h : (isAsciiAlphaChar c || c == ' ') = true) :
    (Char.toUpper c == ' ') = (c == ' ') := by
  rw [Bool.or_eq_true] at h
  rcases h with ha | hs
  · rw [alpha_ne_space ha]
    exact beq_space_false_of_not_space (upper_not_pySpace (toUpper_upper ha))
  · rw [eq_of_beq hs]
    decide

theorem normChar_aos (c : Char) :
    (isAsciiAlphaChar (normChar c) || pyIsSpace (normChar c)) = true := by
  unfold normChar
  split_ifs with h
  · exact h
  · decide

theorem collapseAux_nil (b : Bool) : collapseAux b [] = [] := by cases b <;> rfl

theorem collapseAux_cons_space (c : Char) (t : List Char) (h : pyIsSpace c = true) :
    collapseAux false (c :: t) = ' ' :: collapseAux true t ∧
    collapseAux true (c :: t) = collapseAux true t := by
  constructor <;> simp [collapseAux, h]

theorem collapseAux_cons_nonspace (c : Char) (t : List Char) (h : pyIsSpace c = false)
    (b : Bool) : collapseAux b (c :: t) = c :: collapseAux false t := by
  cases b <;> simp [collapseAux, h]

theorem noDouble_tail {a : Char} {l : List Char} (h : noDoubleSpace (a :: l) = true) :
    noDoubleSpace l = true := by
  cases l with
  | nil => rfl
  | cons b t =>
    unfold noDoubleSpace at h
    rw [Bool.and_eq_true] at h
    exact h.2

theorem noDouble_cons {a : Char} {l : List Char}
    (hpair : ∀ c, l.head? = some c → ((a == ' ') && (c == ' ')) = false)
    (h : noDoubleSpace l = true) : noDoubleSpace (a :: l) = true := by
  cases l with
  | nil => rfl
  | cons b t =>
    show ((!((a == ' ') && (b == ' '))) && noDoubleSpace (b :: t)) = true
    rw [Bool.and_eq_true]
    constructor
    · rw [hpair b rfl]
      rfl
    · exact h

theorem collapse_props : ∀ (l : List Char),
    (∀ c ∈ l, (isAsciiAlphaChar c || pyIsSpace c) = true) →
    ((∀ b : Bool, (∀ c ∈ collapseAux b l, (isAsciiAlphaChar c || c == ' ') = true) ∧
       noDoubleSpace (collapseAux b l) = true) ∧
     (∀ c, (collapseAux true l).head? = some c → (c == ' ') = false)) := by
  intro l
  induction l with
  | nil =>
    intro _
    refine ⟨fun b => ⟨?_, ?_⟩, ?_⟩
    · intro c hc
      rw [collapseAux_nil] at hc
      simp at hc
    · rw [collapseAux_nil]
      rfl
    · intro c hc
      simp [collapseAux] at hc
  | cons c t ih =>
    intro hall
    have htall : ∀ d ∈ t, (isAsciiAlphaChar d || pyIsSpace d) = true :=
      fun d hd => hall d (List.mem_cons_of_mem c hd)
    obtain ⟨ihb, ihh⟩ := ih htall
    by_cases hs : pyIsSpace c = true
    · obtain ⟨h1, h2⟩ := collapseAux_cons_space c t hs
      refine ⟨fun b => ?_, ?_⟩
      · cases b with
        | true =>
          rw [h2]
          exact ihb true
        | false =>
          rw [h1]
          constructor
          · intro d hd
            rcases List.mem_cons.mp hd with rfl | hd'
            · decide
            · exact (ihb true).1 d hd'
          · refine noDouble_cons ?_ (ihb true).2
            intro d hd
            rw [ihh d hd]
            simp
      · intro d hd
        rw [h2] at hd
        exact ihh d hd
    · have hs' : pyIsSpace c = false := by
        cases hx : pyIsSpace c with
        | false => rfl
        | true => exact absurd hx hs
      have halpha : isAsciiAlphaChar c = true := by
        have hcc := hall c (List.mem_cons_self c t)
        rw [Bool.or_eq_true] at hcc
        rcases hcc with h | h
        · exact h
        · exact absurd (hs'.symm.trans h) (by simp)
      refine ⟨fun b => ?_, ?_⟩
      · rw [collapseAux_cons_nonspace c t hs' b]
        constructor
        · intro d hd
          rcases List.mem_cons.mp hd with rfl | hd'
          · rw [Bool.or_eq_true]
            exact Or.inl halpha
          · exact (ihb false).1 d hd'
        · refine noDouble_cons ?_ (ihb false).2
          intro d hd
          rw [alpha_ne_space halpha]
          simp
      · intro d hd
        rw [collapseAux_cons_nonspace c t hs' true, List.head?_cons] at hd
        injection hd with hd
        rw [← hd]
        exact alpha_ne_space halpha

theorem dropTrailWS_sublist : ∀ (l : List Char), List.Sublist (dropTrailWS l) l := by
  intro l
  induction l with
  | nil => simp [dropTrailWS]
  | cons c t ih =>
    show List.Sublist (dropTrailWS (c :: t)) (c :: t)
    simp only [dropTrailWS]
    split_ifs
    · exact List.nil_sublist _
    · exact List.Sublist.cons₂ c ih

theorem noDouble_dropWhile {l : List Char} (h : noDoubleSpace l = true) :
    noDoubleSpace (l.dropWhile pyIsSpace) = true := by
  induction l with
  | nil => exact h
  | cons c t ih =>
    rw [List.dropWhile_cons]
    split_ifs
    · exact ih (noDouble_tail h)
    · exact h

theorem dropTrail_head_of_ne : ∀ {l : List Char}, dropTrailWS l ≠ [] →
    (dropTrailWS l).head? = l.head? := by
  intro l
  cases l with
  | nil => intro _; rfl
  | cons c t =>
    intro hne
    simp only [dropTrailWS] at hne ⊢
    split_ifs at hne ⊢
    · exact absurd rfl hne
    · rfl

theorem noDouble_dropTrail : ∀ {l : List Char}, noDoubleSpace l = true →
    noDoubleSpace (dropTrailWS l) = true := by
  intro l
  induction l with
  | nil => intro h; exact h
  | cons c t ih =>
    intro h
    simp only [dropTrailWS]
    split_ifs
    · rfl
    · refine noDouble_cons ?_ (ih (noDouble_tail h))
      intro d hd
      have hne : dropTrailWS t ≠ [] := by
        intro hnil
        rw [hnil] at hd
        simp at hd
      rw [dropTrail_head_of_ne hne] at hd
      cases t with
      | nil => simp at hd
      | cons b t' =>
        rw [List.head?_cons] at hd
        injection hd with hd
        subst hd
        unfold noDoubleSpace at h
        rw [Bool.and_eq_true] at h
        have h1 := h.1
        rwa [Bool.not_eq_true'] at h1

theorem dropTrail_last : ∀ {l : List Char} {c : Char},
    (dropTrailWS l).getLast? = some c → pyIsSpace c = false := by
  intro l
  induction l with
  | nil =>
    intro c h
    simp [dropTrailWS] at h
  | cons a t ih =>
    intro c h
    simp only [dropTrailWS] at h
    split_ifs at h with hcond
    · simp at h
    · cases hr : dropTrailWS t with
      | nil =>
        rw [hr] at h
        have hac : a = c := by simpa using h
        rw [hr] at hcond
        simp at hcond
        rw [← hac]
        exact hcond
      | cons x xs =>
        rw [hr] at h
        rw [List.getLast?_cons_cons] at h
        rw [← hr] at h
        exact ih h

theorem head_dropWhile_not : ∀ {l : List Char} {c : Char},
    (l.dropWhile pyIsSpace).head? = some c → pyIsSpace c = false := by
  intro l
  induction l with
  | nil =>
    intro c h
    simp at h
  | cons a t ih =>
    intro c h
    rw [List.dropWhile_cons] at h
    split_ifs at h with ha
    · exact ih h
    · rw [List.head?_cons] at h
      injection h with h
      rw [← h]
      simpa using ha

theorem mapFixId : ∀ (l : List Char) (f : Char → Char), (∀ c ∈ l, f c = c) → l.map f = l := by
  intro l f
  induction l with
  | nil => intro _; rfl
  | cons c t ih =>
    intro h
    rw [List.map_cons, h c (List.mem_cons_self c t),
      ih (fun d hd => h d (List.mem_cons_of_mem c hd))]

theorem getLast?_map : ∀ (l : List Char) (f : Char → Char),
    (l.map f).getLast? = l.getLast?.map f := by
  intro l f
  induction l with
  | nil => rfl
  | cons c t ih =>
    cases t with
    | nil => rfl
    | cons d t' =>
      rw [List.map_cons]
      rw [show (d :: t').map f = f d :: t'.map f from List.map_cons f d t']
      rw [List.getLast?_cons_cons]
      rw [show (f d :: t'.map f) = (d :: t').map f from (List.map_cons f d t').symm]
      rw [ih, List.getLast?_cons_cons]

theorem mem_of_getLast? : ∀ {l : List Char} {c : Char}, l.getLast? = some c → c ∈ l := by
  intro l
  induction l with
  | nil =>
    intro c h
    simp at h
  | cons a t ih =>
    intro c h
    cases t with
    | nil =>
      have hac : a = c := by simpa using h
      rw [← hac]
      exact List.mem_cons_self a []
    | cons b t' =>
      rw [List.getLast?_cons_cons] at h
      exact List.mem_cons_of_mem a (ih h)

theorem noDouble_map_upper : ∀ (l : List Char),
    (∀ c ∈ l, (isAsciiAlphaChar c || c == ' ') = true) → noDoubleSpace l = true →
    noDoubleSpace (l.map Char.toUpper) = true := by
  intro l
  induction l with
  | nil => intro _ _; rfl
  | cons a t ih =>
    intro hall h
    rw [List.map_cons]
    refine noDouble_cons ?_
      (ih (fun d hd => hall d (List.mem_cons_of_mem a hd)) (noDouble_tail h))
    intro d hd
    cases t with
    | nil => simp at hd
    | cons b t' =>
      rw [List.map_cons, List.head?_cons] at hd
      injection hd with hd
      rw [← hd]
      rw [upper_space_iff (hall a (List.mem_cons_self a (b :: t'))),
        upper_space_iff (hall b (List.mem_cons_of_mem a (List.mem_cons_self b t')))]
      unfold noDoubleSpace at h
      rw [Bool.and_eq_true] at h
      have h1 := h.1
      rwa [Bool.not_eq_true'] at h1

theorem noEdge_map_upper (l : List Char)
    (hall : ∀ c ∈ l, (isAsciiAlphaChar c || c == ' ') = true)
    (h : noEdgeSpace l = true) : noEdgeSpace (l.map Char.toUpper) = true := by
  unfold noEdgeSpace at h ⊢
  rw [Bool.and_eq_true] at h ⊢
  obtain ⟨hh, hl⟩ := h
  constructor
  · cases l with
    | nil => rfl
    | cons c t =>
      rw [List.map_cons, List.head?_cons]
      rw [List.head?_cons] at hh
      have hh' : (!(c == ' ')) = true := hh
      show (!(Char.toUpper c == ' ')) = true
      rw [upper_space_iff (hall c (List.mem_cons_self c t))]
      exact hh'
  · rw [getLast?_map]
    cases hgl : l.getLast? with
    | none => rfl
    | some d =>
      rw [hgl] at hl
      have hl' : (!(d == ' ')) = true := hl
      show (!(Char.toUpper d == ' ')) = true
      rw [upper_space_iff (hall d (mem_of_getLast? hgl))]
      exact hl'

theorem isUpper_of_AZ {c : Char} (h : isUpperAZ c = true) : c.isUpper = true := by
  obtain ⟨h1, h2⟩ := isUpperAZ_toNat h
  show (decide (65 ≤ c.val) && decide (c.val ≤ 90)) = true
  rw [Bool.and_eq_true]
  exact ⟨decide_eq_true ((show (65 ≤ c.val) ↔ (65 ≤ c.toNat) from Iff.rfl).mpr h1),
    decide_eq_true ((show (c.val ≤ 90) ↔ (c.toNat ≤ 90) from Iff.rfl).mpr h2)⟩

theorem alpha_of_upperAZ {c : Char} (h : isUpperAZ c = true) : isAsciiAlphaChar c = true := by
  show (c.isUpper || c.isLower) = true
  rw [Bool.or_eq_true]
  exact Or.inl (isUpper_of_AZ h)

theorem normChar_fix {c : Char} (h : (isUpperAZ c || c == ' ') = true) : normChar c = c := by
  rw [Bool.or_eq_true] at h
  rcases h with h | h
  · unfold normChar
    rw [if_pos]
    rw [Bool.or_eq_true]
    exact Or.inl (alpha_of_upperAZ h)
  · rw [eq_of_beq h]
    decide

theorem nonspace_of_upper_or_space {c : Char} (h : (isUpperAZ c || c == ' ') = true)
    (hne : (c == ' ') = false) : pyIsSpace c = false := by
  rw [Bool.or_eq_true] at h
  rcases h with h | h
  · exact upper_not_pySpace h
  · rw [h] at hne
    exact absurd hne (by decide)

theorem upperAZ_to_alpha_or_space {c : Char} (h : (isUpperAZ c || c == ' ') = true) :
    (isAsciiAlphaChar c || c == ' ') = true := by
  rw [Bool.or_eq_true] at h ⊢
  rcases h with h | h
  · exact Or.inl (alpha_of_upperAZ h)
  · exact Or.inr h

theorem collapse_fix : ∀ (l : List Char),
    (∀ c ∈ l, (isUpperAZ c || c == ' ') = true) → noDoubleSpace l = true →
    (collapseAux false l = l ∧
     ((∀ c, l.head? = some c → (c == ' ') = false) → collapseAux true l = l)) := by
  intro l
  induction l with
  | nil =>
    intro _ _
    exact ⟨collapseAux_nil false, fun _ => collapseAux_nil true⟩
  | cons c t ih =>
    intro hall hnd
    obtain ⟨ihf, iht⟩ := ih (fun d hd => hall d (List.mem_cons_of_mem c hd)) (noDouble_tail hnd)
    have hc := hall c (List.mem_cons_self c t)
    rw [Bool.or_eq_true] at hc
    rcases hc with hu | hsp
    · have hns : pyIsSpace c = false := upper_not_pySpace hu
      constructor
      · rw [collapseAux_cons_nonspace c t hns false, ihf]
      · intro _
        rw [collapseAux_cons_nonspace c t hns true, ihf]
    · have hceq : c = ' ' := eq_of_beq hsp
      subst hceq
      constructor
      · rw [(collapseAux_cons_space ' ' t (by decide)).1]
        congr 1
        refine iht ?_
        intro d hd
        cases t with
        | nil => simp at hd
        | cons b t' =>
          rw [List.head?_cons] at hd
          injection hd with hd
          subst hd
          unfold noDoubleSpace at hnd
          rw [Bool.and_eq_true] at hnd
          have h1 := hnd.1
          rw [Bool.not_eq_true'] at h1
          rw [show ((' ' == ' ') : Bool) = true from rfl, Bool.true_and] at h1
          exact h1
      · intro hh
        exact absurd (hh ' ' rfl) (by decide)

theorem dropWhile_fix {l : List Char}
    (h : ∀ c, l.head? = some c → pyIsSpace c = false) : l.dropWhile pyIsSpace = l := by
  cases l with
  | nil => rfl
  | cons c t =>
    rw [List.dropWhile_cons, if_neg]
    rw [h c rfl]
    simp

theorem getLast?_cons_of_ne {a : Char} {t : List Char} (h : t ≠ []) :
    (a :: t).getLast? = t.getLast? := by
  cases t with
  | nil => exact absurd rfl h
  | cons b t' => exact List.getLast?_cons_cons

theorem dropTrail_fix : ∀ {l : List Char},
    (∀ c, l.getLast? = some c → pyIsSpace c = false) → dropTrailWS l = l := by
  intro l
  induction l with
  | nil => intro _; rfl
  | cons c t ih =>
    intro h
    simp only [dropTrailWS]
    cases t with
    | nil =>
      have hneg : ¬(((dropTrailWS ([] : List Char)).isEmpty && pyIsSpace c) = true) := by
        intro hcond
        rw [Bool.and_eq_true] at hcond
        have h2 := hcond.2
        rw [h c (by simp)] at h2
        exact absurd h2 (by simp)
      rw [if_neg hneg]
      rfl
    | cons b t' =>
      have hlast : ∀ d, (b :: t').getLast? = some d → pyIsSpace d = false := by
        intro d hd
        refine h d ?_
        rw [getLast?_cons_of_ne (by simp)]
        exact hd
      have hdt : dropTrailWS (b :: t') = b :: t' := ih hlast
      have hneg : ¬((((b :: t').isEmpty) && pyIsSpace c) = true) := by simp
      rw [hdt, if_neg hneg]

/-- Any list in normalized shape is a fixpoint of `normalize_name`. -/
theorem normalized_fix (l : List Char)
    (hchars : ∀ c ∈ l, (isUpperAZ c || c == ' ') = true)
    (hnd : noDoubleSpace l = true)
    (hhead : ∀ c, l.head? = some c → (c == ' ') = false)
    (hlast : ∀ c, l.getLast? = some c → (c == ' ') = false) :
    normalize_name ⟨l⟩ = ⟨l⟩ := by
  show (⟨(stripPy (collapseAux false (l.map normChar))).map Char.toUpper⟩ : String) = ⟨l⟩
  have h1 : l.map normChar = l := mapFixId l normChar (fun c hc => normChar_fix (hchars c hc))
  rw [h1]
  have h2 : collapseAux false l = l := (collapse_fix l hchars hnd).1
  rw [h2]
  have h3 : stripPy l = l := by
    show dropTrailWS (l.dropWhile pyIsSpace) = l
    have hdw : l.dropWhile pyIsSpace = l := dropWhile_fix
      (fun c hc => nonspace_of_upper_or_space
        (hchars c (by cases l with
          | nil => simp at hc
          | cons a t =>
            rw [List.head?_cons] at hc
            injection hc with hc
            rw [← hc]
            exact List.mem_cons_self a t)) (hhead c hc))
    rw [hdw]
    exact dropTrail_fix
      (fun c hc => nonspace_of_upper_or_space (hchars c (mem_of_getLast? hc)) (hlast c hc))
  rw [h3]
  have h4 : l.map Char.toUpper = l :=
    mapFixId l Char.toUpper (fun c hc => toUpper_fix (hchars c hc))
  rw [h4]

theorem mem_of_head? : ∀ {l : List Char} {c : Char}, l.head? = some c → c ∈ l := by
  intro l
  cases l with
  | nil =>
    intro c h
    simp at h
  | cons a t =>
    intro c h
    rw [List.head?_cons] at h
    injection h with h
    rw [← h]
    exact List.mem_cons_self a t

theorem normalize_props (s : String) :
    (∀ c ∈ (normalize_name s).data, (isUpperAZ c || c == ' ') = true) ∧
    noDoubleSpace (normalize_name s).data = true ∧
    (∀ c, (normalize_name s).data.head? = some c → (c == ' ') = false) ∧
    (∀ c, (normalize_name s).data.getLast? = some c → (c == ' ') = false) := by
  have h1 : ∀ c ∈ s.data.map normChar, (isAsciiAlphaChar c || pyIsSpace c) = true := by
    intro c hc
    rcases List.mem_map.mp hc with ⟨d, _, rfl⟩
    exact normChar_aos d
  obtain ⟨h2b, _⟩ := collapse_props (s.data.map normChar) h1
  obtain ⟨h2chars, h2nd⟩ := h2b false
  have h3chars : ∀ c ∈ stripPy (collapseAux false (s.data.map normChar)),
      (isAsciiAlphaChar c || c == ' ') = true := by
    intro c hc
    refine h2chars c ?_
    exact (List.dropWhile_sublist pyIsSpace).subset ((dropTrailWS_sublist _).subset hc)
  have h3nd : noDoubleSpace (stripPy (collapseAux false (s.data.map normChar))) = true :=
    noDouble_dropTrail (noDouble_dropWhile h2nd)
  have h3head : ∀ c, (stripPy (collapseAux false (s.data.map normChar))).head? = some c →
      pyIsSpace c = false := by
    intro c hc
    by_cases hne :
        dropTrailWS ((collapseAux false (s.data.map normChar)).dropWhile pyIsSpace) = []
    · have hc' : ([] : List Char).head? = some c := by
        rw [← hne]
        exact hc
      simp at hc'
    · have hc' : ((collapseAux false (s.data.map normChar)).dropWhile pyIsSpace).head? =
          some c := by
        rw [← dropTrail_head_of_ne hne]
        exact hc
      exact head_dropWhile_not hc'
  have h3last : ∀ c, (stripPy (collapseAux false (s.data.map normChar))).getLast? = some c →
      pyIsSpace c = false := fun c hc => dropTrail_last hc
  have hdata : (normalize_name s).data =
      (stripPy (collapseAux false (s.data.map normChar))).map Char.toUpper := rfl
  refine ⟨?_, ?_, ?_, ?_⟩
  · rw [hdata]
    intro c hc
    rcases List.mem_map.mp hc with ⟨d, hd, rfl⟩
    exact toUpper_shape (h3chars d hd)
  · rw [hdata]
    exact noDouble_map_upper _ h3chars h3nd
  · rw [hdata]
    intro c hc
    rw [List.head?_map] at hc
    cases hh : (stripPy (collapseAux false (s.data.map normChar))).head? with
    | none =>
      rw [hh] at hc
      simp at hc
    | some d =>
      rw [hh] at hc
      injection hc with hc
      rw [← hc]
      rw [upper_space_iff (h3chars d (mem_of_head? hh))]
      exact beq_space_false_of_not_space (h3head d hh)
  · rw [hdata]
    intro c hc
    rw [getLast?_map] at hc
    cases hh : (stripPy (collapseAux false (s.data.map normChar))).getLast? with
    | none =>
      rw [hh] at hc
      simp at hc
    | some d =>
      rw [hh] at hc
      injection hc with hc
      rw [← hc]
      rw [upper_space_iff (h3chars d (mem_of_getLast? hh))]
      exact beq_space_false_of_not_space (h3last d hh)

/-- Claim C10: `normalize_name` is idempotent, and its output consists only
    of uppercase letters separated by single spaces, with no leading or
    trailing whitespace. -/
theorem c10_normalize_name (s : String) :
    normalize_name (normalize_name s) = normalize_name s ∧
    normShape (normalize_name s).data = true := by
  obtain ⟨hchars, hnd, hhead, hlast⟩ := normalize_props s
  constructor
  · have hfix := normalized_fix (normalize_name s).data hchars hnd hhead hlast
    rwa [show (⟨(normalize_name s).data⟩ : String) = normalize_name s from rfl] at hfix
  · unfold normShape
    rw [Bool.and_eq_true, Bool.and_eq_true]
    refine ⟨⟨?_, hnd⟩, ?_⟩
    · unfold shapeChars
      rw [List.all_eq_true]
      exact hchars
    · unfold noEdgeSpace
      rw [Bool.and_eq_true]
      constructor
      · cases hh : (normalize_name s).data.head? with
        | none => rfl
        | some c =>
          show (!(c == ' ')) = true
          rw [hhead c hh]
          rfl
      · cases hh : (normalize_name s).data.getLast? with
        | none => rfl
        | some c =>
          show (!(c == ' ')) = true
          rw [hlast c hh]
          rfl

/-- Claim C1, evaluated at the failing input: the sensitive-path
    computation does produce the paired SSN with `grounded=true`, exactly
    as the spec demands — but `ask` discards it, because the qa_chain
    block (financial_qa.py:173-176) is dedented out of the else-branch and
    overwrites `answer`, `source_docs` and `grounded`.  The returned
    answer is the generation collaborator's text, not "222-22-2222". -/
theorem c1_sensitive_answer_overwritten :
    sensitiveAnswer sallyQuestion [sallyDoc] = ("222-22-2222", true) ∧
    ask sallyRetrieve sallyQA sallyQuestion DisclosureMode.Authorized false true =
      Except.ok ⟨sallyLLM,
        ⟨sallyQuestion, "authorized", true, true, [(some ("w2.pdf"), some 4)]⟩⟩ ∧
    sallyLLM ≠ "222-22-2222" :=
  ⟨by decide, by decide, by decide⟩

/-- Claim C2: a collaborator failure (retrieval or generation) makes `ask`
    return that very error — it is never downgraded to a "not found"
    answer — and the evaluation loop then builds a trace record with the
    `error` field set, `grounded=false`, `sources=[]`, and the measured
    latency. -/
theorem c2_collaborator_failure (retrieve : String → Nat → Except String (List Doc))
    (qa_chain : String → Except String QAResult) (question : String)
    (mode : DisclosureMode) (incl auth : Bool) (e : String) (lat : Nat) :
    (looks_like_ssn_question question = true → retrieve question 12 = Except.error e →
      ask retrieve qa_chain question mode incl auth = Except.error e ∧
      evalStep (ask retrieve qa_chain question mode incl auth) question mode lat =
        ⟨question, mode.value, false, [], lat, some e⟩) ∧
    (∀ docs, retrieve question 12 = Except.ok docs → qa_chain question = Except.error e →
      ask retrieve qa_chain question mode incl auth = Except.error e ∧
      evalStep (ask retrieve qa_chain question mode incl auth) question mode lat =
        ⟨question, mode.value, false, [], lat, some e⟩) := by
  constructor
  · intro hs hr
    have hask : ask retrieve qa_chain question mode incl auth = Except.error e := by
      unfold ask
      rw [if_pos hs, hr]
    refine ⟨hask, ?_⟩
    rw [hask]
    rfl
  · intro docs hr hq
    have hask : ask retrieve qa_chain question mode incl auth = Except.error e := by
      unfold ask
      by_cases hs : looks_like_ssn_question question = true
      · rw [if_pos hs, hr]
        show askStep2 qa_chain question mode incl auth = Except.error e
        unfold askStep2
        rw [hq]
      · rw [if_neg hs]
        unfold askStep2
        rw [hq]
    refine ⟨hask, ?_⟩
    rw [hask]
    rfl

theorem c2_collaborator_failure_witness :
    ask failRetrieve anyQA ssnQuestion DisclosureMode.Authorized true false =
      Except.error ("retrieval backend unavailable") ∧
    evalStep (ask failRetrieve anyQA ssnQuestion DisclosureMode.Authorized true false)
      ssnQuestion DisclosureMode.Authorized 37 =
      ⟨ssnQuestion, "authorized", false, [], 37, some ("retrieval backend unavailable")⟩ :=
  (c2_collaborator_failure failRetrieve anyQA ssnQuestion DisclosureMode.Authorized true false
    ("retrieval backend unavailable") 37).1 (by decide) rfl

theorem dedup_acc_ne : ∀ (docs : List Doc) (acc : List String), acc ≠ [] →
    docs.foldl tagStep acc ≠ [] := by
  intro docs
  induction docs with
  | nil => intro acc h; exact h
  | cons d ds ih =>
    intro acc h
    rw [List.foldl_cons]
    refine ih _ ?_
    show (if fmtTag d ∈ acc then acc else acc ++ [fmtTag d]) ≠ []
    split_ifs
    · exact h
    · intro hx
      exact absurd (List.append_eq_nil.mp hx).2 (by simp)

theorem dedupTags_isEmpty_false {d : Doc} {ds : List Doc} :
    (dedupTags (d :: ds)).isEmpty = false := by
  have hne : dedupTags (d :: ds) ≠ [] := by
    unfold dedupTags
    rw [List.foldl_cons]
    refine dedup_acc_ne ds _ ?_
    show (if fmtTag d ∈ ([] : List String) then ([] : List String) else [] ++ [fmtTag d]) ≠ []
    simp
  cases hd : dedupTags (d :: ds) with
  | nil => exact absurd hd hne
  | cons x xs => rfl

/-- Claim C8: the privacy policy is applied to the answer text before the
    citation block is appended — the returned string is
    `enforce(answer, mode, grounded, authorized)` followed by the
    deduplicated, order-preserving "Sources" lines, so the citation tags
    are never subject to SSN masking. -/
theorem c8_policy_before_citations (retrieve : String → Nat → Except String (List Doc))
    (qa_chain : String → Except String QAResult) (question : String)
    (mode : DisclosureMode) (auth : Bool) (qaRes : QAResult) (docs0 : List Doc)
    (hr : retrieve question 12 = Except.ok docs0)
    (hq : qa_chain question = Except.ok qaRes) :
    ask retrieve qa_chain question mode true auth = Except.ok
      ⟨(if qaRes.source_documents.isEmpty then
          PrivacyPolicy.enforce qaRes.result mode
            (decide (0 < qaRes.source_documents.length)) auth
        else
          PrivacyPolicy.enforce qaRes.result mode
            (decide (0 < qaRes.source_documents.length)) auth ++
            citationText (dedupTags qaRes.source_documents)),
        ⟨question, mode.value, auth, decide (0 < qaRes.source_documents.length),
          qaRes.source_documents.map fun d => (d.source, d.page)⟩⟩ := by
  have hstep : askStep2 qa_chain question mode true auth = Except.ok
      ⟨(if qaRes.source_documents.isEmpty then
          PrivacyPolicy.enforce qaRes.result mode
            (decide (0 < qaRes.source_documents.length)) auth
        else
          PrivacyPolicy.enforce qaRes.result mode
            (decide (0 < qaRes.source_documents.length)) auth ++
            citationText (dedupTags qaRes.source_documents)),
        ⟨question, mode.value, auth, decide (0 < qaRes.source_documents.length),
          qaRes.source_documents.map fun d => (d.source, d.page)⟩⟩ := by
    obtain ⟨res, docs⟩ := qaRes
    cases docs with
    | nil =>
      unfold askStep2
      rw [hq]
      simp
    | cons d ds =>
      have hde : (dedupTags (d :: ds)).isEmpty = false := dedupTags_isEmpty_false
      unfold askStep2
      rw [hq]
      simp [hde]
  unfold ask
  by_cases hs : looks_like_ssn_question question = true
  · rw [if_pos hs, hr]
    exact hstep
  · rw [if_neg hs]
    exact hstep

theorem c8_policy_before_citations_witness :
    ask okRetrieve ssnQA totalQuestion DisclosureMode.Redacted true false =
      Except.ok ⟨PrivacyPolicy.enforce ("The SSN is 999-88-7777.") DisclosureMode.Redacted
          (decide (0 < ([ssnNameDoc] : List Doc).length)) false ++
          citationText (dedupTags [ssnNameDoc]),
        ⟨totalQuestion, "redacted", false, true, [(some ("123-45-6789.pdf"), some 1)]⟩⟩ ∧
    PrivacyPolicy.enforce ("The SSN is 999-88-7777.") DisclosureMode.Redacted
        (decide (0 < ([ssnNameDoc] : List Doc).length)) false ++
        citationText (dedupTags [ssnNameDoc]) =
      "The SSN is [SSN].\n\nSources:\n- 123-45-6789.pdf (page 1)" :=
  ⟨c8_policy_before_citations okRetrieve ssnQA totalQuestion DisclosureMode.Redacted false
    { result := "The SSN is 999-88-7777.", source_documents := [ssnNameDoc] } [] rfl rfl,
   by decide⟩
